import Mathlib

/-!
Verification of the path-addressed document mutation subsystem of the
jsoncrack node-editing modal (`NodeModal` / `TextEditor` feature).

The development shallowly embeds, from the source:
  * the JSON value tree produced by `JSON.parse` (`JsonValue`),
    with numbers idealised as exact decimals `mantissa * 10 ^ exp10`
    (no binary floating point rounding, no NaN/Infinity values);
  * `JSON.stringify(v, null, 2)` (`strSerialize`) and `JSON.parse`
    (`parseText`) on document text;
  * JavaScript property access and assignment on JSON trees, as used by
    the path-walking loop of `applyEditToJson` (`mutatePath`);
  * the `Number()`, `String()`, trim and lowercase coercions used by the
    leaf save path (`jsNumber`, `jsToString`, `jsTrim`);
  * `normalizeNodeData`, `jsonPathToString` and `applyEditToJson` of the
    node modal, and the save handler's store updates (`handleSave`).
-/

namespace JsonCrack

/-- JSON value tree as produced by `JSON.parse`.  A number literal
`m.fE±x` is kept exactly as a pair `(mantissa, exp10)` with value
`mantissa * 10 ^ exp10`; this idealises IEEE doubles by exact decimals. -/
inductive JsonValue where
  | null : JsonValue
  | bool (b : Bool) : JsonValue
  | num (mantissa : Int) (exp10 : Int) : JsonValue
  | str (s : String) : JsonValue
  | arr (elems : List JsonValue) : JsonValue
  | obj (fields : List (String × JsonValue)) : JsonValue

mutual

/-- Boolean structural equality of JSON values. -/
def beqV : JsonValue → JsonValue → Bool
  | JsonValue.null, JsonValue.null => true
  | JsonValue.bool a, JsonValue.bool b => a == b
  | JsonValue.num m e, JsonValue.num m' e' => m == m' && e == e'
  | JsonValue.str s, JsonValue.str t => s == t
  | JsonValue.arr xs, JsonValue.arr ys => beqL xs ys
  | JsonValue.obj fs, JsonValue.obj gs => beqF fs gs
  | _, _ => false

/-- Boolean structural equality of JSON element lists. -/
def beqL : List JsonValue → List JsonValue → Bool
  | [], [] => true
  | x :: xs, y :: ys => beqV x y && beqL xs ys
  | _, _ => false

/-- Boolean structural equality of JSON field lists. -/
def beqF : List (String × JsonValue) → List (String × JsonValue) → Bool
  | [], [] => true
  | (k, v) :: fs, (k', v') :: gs => k == k' && beqV v v' && beqF fs gs
  | _, _ => false

end

mutual

theorem eq_of_beqV : ∀ a b, beqV a b = true → a = b
  | JsonValue.null, JsonValue.null, _ => rfl
  | JsonValue.bool a, JsonValue.bool b, h => by
    simp only [beqV, beq_iff_eq] at h; rw [h]
  | JsonValue.num m e, JsonValue.num m' e', h => by
    simp only [beqV, Bool.and_eq_true, beq_iff_eq] at h; rw [h.1, h.2]
  | JsonValue.str s, JsonValue.str t, h => by
    simp only [beqV, beq_iff_eq] at h; rw [h]
  | JsonValue.arr xs, JsonValue.arr ys, h => by
    rw [eq_of_beqL xs ys h]
  | JsonValue.obj fs, JsonValue.obj gs, h => by
    rw [eq_of_beqF fs gs h]

theorem eq_of_beqL : ∀ xs ys, beqL xs ys = true → xs = ys
  | [], [], _ => rfl
  | x :: xs, y :: ys, h => by
    simp only [beqL, Bool.and_eq_true] at h
    rw [eq_of_beqV x y h.1, eq_of_beqL xs ys h.2]

theorem eq_of_beqF : ∀ fs gs, beqF fs gs = true → fs = gs
  | [], [], _ => rfl
  | (k, v) :: fs, (k', v') :: gs, h => by
    simp only [beqF, Bool.and_eq_true, beq_iff_eq] at h
    rw [h.1.1, eq_of_beqV v v' h.1.2, eq_of_beqF fs gs h.2]

end

mutual

theorem beqV_refl : ∀ a, beqV a a = true
  | JsonValue.null => rfl
  | JsonValue.bool a => by simp [beqV]
  | JsonValue.num m e => by simp [beqV]
  | JsonValue.str s => by simp [beqV]
  | JsonValue.arr xs => beqL_refl xs
  | JsonValue.obj fs => beqF_refl fs

theorem beqL_refl : ∀ xs, beqL xs xs = true
  | [] => rfl
  | x :: xs => by
    simp only [beqL, Bool.and_eq_true]
    exact ⟨beqV_refl x, beqL_refl xs⟩

theorem beqF_refl : ∀ fs, beqF fs fs = true
  | [] => rfl
  | (k, v) :: fs => by
    simp only [beqF, Bool.and_eq_true, beq_iff_eq]
    exact ⟨⟨trivial, beqV_refl v⟩, beqF_refl fs⟩

end

instance : BEq JsonValue := ⟨beqV⟩

instance : LawfulBEq JsonValue where
  eq_of_beq h := eq_of_beqV _ _ h
  rfl := beqV_refl _

instance : DecidableEq JsonValue := fun a b =>
  decidable_of_iff (beqV a b = true) ⟨eq_of_beqV a b, fun h => h ▸ beqV_refl a⟩

instance : DecidableEq (Except String JsonValue) := fun a b =>
  match a, b with
  | Except.error x, Except.error y =>
    if h : x = y then isTrue (by rw [h]) else isFalse (fun hc => h (Except.error.inj hc))
  | Except.ok x, Except.ok y =>
    if h : x = y then isTrue (by rw [h]) else isFalse (fun hc => h (Except.ok.inj hc))
  | Except.error _, Except.ok _ => isFalse (fun hc => Except.noConfusion hc)
  | Except.ok _, Except.error _ => isFalse (fun hc => Except.noConfusion hc)

/-- Path segment supplied by the graph view: a string key or a numeric index
(`NodeData["path"]` has entries of type string or number). -/
inductive Seg where
  | key (s : String) : Seg
  | idx (n : Nat) : Seg
deriving DecidableEq

/-- Type tag carried by one flattened row of a selected node
(the `type` field of a `NodeData["text"]` entry). -/
inductive RowType where
  | str | num | bool | null | obj | arr
deriving DecidableEq

/-- One flattened row of a selected node: `{ key?, value, type }`.
An absent key is `none`; the runtime value is a JSON scalar or container. -/
structure NodeRow where
  key : Option String
  value : JsonValue
  type : RowType
deriving DecidableEq

/-- The part of the selected node the modal reads: its rows and its path
(`nodeData.text`, `nodeData.path`; the path is optional in the source). -/
structure NodeDataE where
  text : List NodeRow
  path : Option (List Seg)
deriving DecidableEq

/-- JavaScript truthiness of an optional string (`!row.key` is true for an
absent key and for the empty string). -/
def truthyKey : Option String → Bool
  | none => false
  | some s => s ≠ ""

/-- First-occurrence lookup in a JS object's ordered own properties. -/
def objGet : List (String × JsonValue) → String → Option JsonValue
  | [], _ => none
  | (k, v) :: fs, k' => if k = k' then some v else objGet fs k'

/-- JS property assignment `o[k] = v` on an ordered own-property list: an
existing key keeps its position and gets the new value, a new key is
appended at the end. -/
def objInsert : List (String × JsonValue) → String → JsonValue → List (String × JsonValue)
  | [], k, v => [(k, v)]
  | (k', v') :: fs, k, v => if k' = k then (k, v) :: fs else (k', v') :: objInsert fs k v

/-- JS array element assignment `a[i] = v` as observed through
`JSON.stringify`: in-range assignment replaces the element, out-of-range
assignment pads the created holes with `null`. -/
def arrSet (elems : List JsonValue) (i : Nat) (v : JsonValue) : List JsonValue :=
  if i < elems.length then elems.set i v
  else elems ++ List.replicate (i - elems.length) JsonValue.null ++ [v]

/-- Decimal digits of a natural number, most significant first. -/
def natToChars (n : Nat) : List Char :=
  if h : n < 10 then [Char.ofNat (48 + n)]
  else natToChars (n / 10) ++ [Char.ofNat (48 + n % 10)]
decreasing_by exact Nat.div_lt_self (by omega) (by omega)

/-- JS `String(number)` / `JSON.stringify` rendering of an integer. -/
def intToChars (i : Int) : List Char :=
  if i < 0 then '-' :: natToChars i.natAbs else natToChars i.natAbs

/-- Property key under which a path segment is stored in a JS object:
numbers are coerced to their decimal string. -/
def segKey : Seg → String
  | Seg.key s => s
  | Seg.idx n => String.mk (natToChars n)

/-- Array index denoted by a path segment, if any: a numeric segment, or a
string segment that is the canonical decimal form of an index (JS array
indexing coerces canonical numeric strings). -/
def segIndex : Seg → Option Nat
  | Seg.idx n => some n
  | Seg.key s =>
    match s.toNat? with
    | some k => if String.mk (natToChars k) = s then some k else none
    | none => none

/-- Lowercase hexadecimal digit for a value below 16. -/
def hexDigit (n : Nat) : Char :=
  if n < 10 then Char.ofNat (48 + n) else Char.ofNat (87 + n)

/-- JSON.stringify escaping of one string character: quote, backslash and
the named control escapes get a backslash form, other control characters a
four-digit hexadecimal escape, everything else is emitted verbatim. -/
def escapeChar (c : Char) : List Char :=
  if c = '"' then ['\\', '"']
  else if c = '\\' then ['\\', '\\']
  else if c = '\n' then ['\\', 'n']
  else if c = '\r' then ['\\', 'r']
  else if c = '\t' then ['\\', 't']
  else if c = Char.ofNat 8 then ['\\', 'b']
  else if c = Char.ofNat 12 then ['\\', 'f']
  else if c.toNat < 32 then
    ['\\', 'u', '0', '0', hexDigit (c.toNat / 16), hexDigit (c.toNat % 16)]
  else [c]

/-- JSON string literal for a Lean string: quotes around the escaped body. -/
def quoteString (s : String) : List Char :=
  '"' :: (s.data.flatMap escapeChar ++ ['"'])

/-- Textual form of an exact-decimal JSON number `m * 10 ^ e`: plain integer
for `e = 0`, exponent form for `e > 0`, decimal-point form for `e < 0`. -/
def numChars (m e : Int) : List Char :=
  if e = 0 then intToChars m
  else if 0 < e then intToChars m ++ 'e' :: natToChars e.toNat
  else
    (if m < 0 then ['-'] else []) ++
      natToChars (m.natAbs / 10 ^ e.natAbs) ++
      '.' :: (List.replicate (e.natAbs - (natToChars (m.natAbs % 10 ^ e.natAbs)).length) '0' ++
        natToChars (m.natAbs % 10 ^ e.natAbs))

/-- Indentation emitted by `JSON.stringify(v, null, 2)` at nesting depth
`ind`: two spaces per level. -/
def pad (ind : Nat) : List Char :=
  List.replicate (2 * ind) ' '

mutual

/-- Character stream of `JSON.stringify(v, null, 2)` for a value at nesting
depth `ind`. -/
def serializeV (ind : Nat) : JsonValue → List Char
  | JsonValue.null => ['n', 'u', 'l', 'l']
  | JsonValue.bool b => if b then ['t', 'r', 'u', 'e'] else ['f', 'a', 'l', 's', 'e']
  | JsonValue.num m e => numChars m e
  | JsonValue.str s => quoteString s
  | JsonValue.arr [] => ['[', ']']
  | JsonValue.arr (x :: xs) =>
    '[' :: '\n' :: (serializeElems (ind + 1) (x :: xs) ++ '\n' :: (pad ind ++ [']']))
  | JsonValue.obj [] => ['\x7b', '\x7d']
  | JsonValue.obj (f :: fs) =>
    '\x7b' :: '\n' :: (serializeFields (ind + 1) (f :: fs) ++ '\n' :: (pad ind ++ ['\x7d']))

/-- Comma-and-newline separated array items, each on its own indented line. -/
def serializeElems (ind : Nat) : List JsonValue → List Char
  | [] => []
  | [x] => pad ind ++ serializeV ind x
  | x :: xs => pad ind ++ serializeV ind x ++ ',' :: '\n' :: serializeElems ind xs

/-- Comma-and-newline separated object members, each `"key": value` on its
own indented line. -/
def serializeFields (ind : Nat) : List (String × JsonValue) → List Char
  | [] => []
  | [(k, v)] => pad ind ++ quoteString k ++ ':' :: ' ' :: serializeV ind v
  | (k, v) :: fs =>
    pad ind ++ quoteString k ++ ':' :: ' ' :: serializeV ind v ++ ',' :: '\n' :: serializeFields ind fs

end

/-- The document text produced by `JSON.stringify(v, null, 2)`. -/
def strSerialize (v : JsonValue) : String :=
  String.mk (serializeV 0 v)

/-- JSON insignificant whitespace: space, tab, line feed, carriage return. -/
def isWs (c : Char) : Bool :=
  c = ' ' || c = '\t' || c = '\n' || c = '\r'

/-- Skip insignificant whitespace. -/
def skipWs (cs : List Char) : List Char :=
  cs.dropWhile isWs

/-- Boundary condition after a serialized number: the next character (if
any) cannot extend the numeric literal. -/
def numBoundary (cs : List Char) : Prop :=
  match cs.head? with
  | none => True
  | some c => c.isDigit = false ∧ c ≠ '.' ∧ c ≠ 'e' ∧ c ≠ 'E'

/-- Value of one hexadecimal digit character. -/
def hexVal (c : Char) : Option Nat :=
  if 48 ≤ c.toNat ∧ c.toNat ≤ 57 then some (c.toNat - 48)
  else if 97 ≤ c.toNat ∧ c.toNat ≤ 102 then some (c.toNat - 87)
  else if 65 ≤ c.toNat ∧ c.toNat ≤ 70 then some (c.toNat - 55)
  else none

/-- Accumulate decimal digit characters onto a value. -/
def digitsToNat (acc : Nat) (cs : List Char) : Nat :=
  cs.foldl (fun a c => a * 10 + (c.toNat - 48)) acc

/-- Body of a JSON string literal after the opening quote, `JSON.parse`
style: named escapes, `\uXXXX` escapes with surrogate-pair combination, and
rejection of raw control characters.  (A lone surrogate, which a Lean
string cannot hold, degrades to the `Char.ofNat` fallback character.) -/
def pStringBody : Nat → List Char → List Char → Option (String × List Char)
  | 0, _, _ => none
  | fuel + 1, acc, cs =>
    match cs with
    | [] => none
    | c :: cs' =>
      if c = '"' then some (String.mk acc.reverse, cs')
      else if c = '\\' then
        match cs' with
        | [] => none
        | e :: cs2 =>
          if e = '"' then pStringBody fuel ('"' :: acc) cs2
          else if e = '\\' then pStringBody fuel ('\\' :: acc) cs2
          else if e = '/' then pStringBody fuel ('/' :: acc) cs2
          else if e = 'b' then pStringBody fuel (Char.ofNat 8 :: acc) cs2
          else if e = 'f' then pStringBody fuel (Char.ofNat 12 :: acc) cs2
          else if e = 'n' then pStringBody fuel ('\n' :: acc) cs2
          else if e = 'r' then pStringBody fuel ('\r' :: acc) cs2
          else if e = 't' then pStringBody fuel ('\t' :: acc) cs2
          else if e = 'u' then
            match cs2 with
            | h1 :: h2 :: h3 :: h4 :: cs3 =>
              match hexVal h1, hexVal h2, hexVal h3, hexVal h4 with
              | some a, some b, some c2, some d =>
                let n := ((a * 16 + b) * 16 + c2) * 16 + d
                if 55296 ≤ n ∧ n ≤ 56319 then
                  match cs3 with
                  | '\\' :: 'u' :: g1 :: g2 :: g3 :: g4 :: cs4 =>
                    match hexVal g1, hexVal g2, hexVal g3, hexVal g4 with
                    | some a', some b', some c', some d' =>
                      let n' := ((a' * 16 + b') * 16 + c') * 16 + d'
                      if 56320 ≤ n' ∧ n' ≤ 57343 then
                        pStringBody fuel
                          (Char.ofNat (65536 + (n - 55296) * 1024 + (n' - 56320)) :: acc) cs4
                      else pStringBody fuel (Char.ofNat n :: acc) cs3
                    | _, _, _, _ => pStringBody fuel (Char.ofNat n :: acc) cs3
                  | _ => pStringBody fuel (Char.ofNat n :: acc) cs3
                else pStringBody fuel (Char.ofNat n :: acc) cs3
              | _, _, _, _ => none
            | _ => none
          else none
      else if c.toNat < 32 then none
      else pStringBody fuel (c :: acc) cs'

/-- Unsigned part of a JSON number literal: integer part (a single zero or
a nonzero-led digit run), optional fraction, optional exponent, evaluated
to an exact decimal with the given sign flag. -/
def pNumberCore (neg : Bool) (cs1 : List Char) : Option ((Int × Int) × List Char) :=
  let intD : List Char := if cs1.head? = some '0' then ['0'] else cs1.takeWhile Char.isDigit
  let cs2 : List Char := if cs1.head? = some '0' then cs1.tail else cs1.dropWhile Char.isDigit
  if intD = [] then none
  else
    let fracD : List Char :=
      if cs2.head? = some '.' then cs2.tail.takeWhile Char.isDigit else []
    let cs3 : List Char :=
      if cs2.head? = some '.' then cs2.tail.dropWhile Char.isDigit else cs2
    if cs2.head? = some '.' ∧ fracD = [] then none
    else
      let mantissa : Int :=
        (if neg then -1 else 1) * (digitsToNat 0 intD * 10 ^ fracD.length + digitsToNat 0 fracD)
      if cs3.head? = some 'e' ∨ cs3.head? = some 'E' then
        let r : List Char := cs3.tail
        let esign : Int := if r.head? = some '-' then -1 else 1
        let r1 : List Char := if r.head? = some '+' ∨ r.head? = some '-' then r.tail else r
        let expD : List Char := r1.takeWhile Char.isDigit
        if expD = [] then none
        else
          some ((mantissa, esign * digitsToNat 0 expD - fracD.length), r1.dropWhile Char.isDigit)
      else some ((mantissa, -(fracD.length : Int)), cs3)

/-- JSON number literal at the head of the input, per the JSON grammar:
optional minus, integer part without leading zeros, optional fraction,
optional exponent.  Returns the exact decimal `(mantissa, exp10)`. -/
def pNumber (cs : List Char) : Option ((Int × Int) × List Char) :=
  if cs.head? = some '-' then pNumberCore true cs.tail else pNumberCore false cs

mutual

/-- One JSON value at the head of the input (no leading whitespace), fueled
recursive descent mirroring `JSON.parse`. -/
def pValue : Nat → List Char → Option (JsonValue × List Char)
  | 0, _ => none
  | _ + 1, [] => none
  | fuel + 1, c :: cs =>
    if c = 'n' then
      match cs with
      | 'u' :: 'l' :: 'l' :: r => some (JsonValue.null, r)
      | _ => none
    else if c = 't' then
      match cs with
      | 'r' :: 'u' :: 'e' :: r => some (JsonValue.bool true, r)
      | _ => none
    else if c = 'f' then
      match cs with
      | 'a' :: 'l' :: 's' :: 'e' :: r => some (JsonValue.bool false, r)
      | _ => none
    else if c = '"' then
      (pStringBody (cs.length + 1) [] cs).map (fun p => (JsonValue.str p.1, p.2))
    else if c = '[' then
      match skipWs cs with
      | ']' :: r => some (JsonValue.arr [], r)
      | cs1 => (pElements fuel cs1).map (fun p => (JsonValue.arr p.1, p.2))
    else if c = '\x7b' then
      match skipWs cs with
      | '\x7d' :: r => some (JsonValue.obj [], r)
      | cs1 => (pMembers fuel [] cs1).map (fun p => (JsonValue.obj p.1, p.2))
    else if c = '-' ∨ c.isDigit then
      (pNumber (c :: cs)).map (fun p => (JsonValue.num p.1.1 p.1.2, p.2))
    else none

/-- Comma separated array elements up to the closing bracket. -/
def pElements : Nat → List Char → Option (List JsonValue × List Char)
  | 0, _ => none
  | fuel + 1, cs =>
    match pValue fuel cs with
    | none => none
    | some (v, r) =>
      match skipWs r with
      | ',' :: r' => (pElements fuel (skipWs r')).map (fun p => (v :: p.1, p.2))
      | ']' :: r' => some ([v], r')
      | _ => none

/-- Comma separated object members up to the closing brace, accumulated with
JS assignment semantics (a duplicate key keeps its first position and takes
the last value). -/
def pMembers : Nat → List (String × JsonValue) → List Char → Option (List (String × JsonValue) × List Char)
  | 0, _, _ => none
  | fuel + 1, acc, cs =>
    match cs with
    | '"' :: cs1 =>
      match pStringBody (cs1.length + 1) [] cs1 with
      | none => none
      | some (k, r) =>
        match skipWs r with
        | ':' :: r1 =>
          match pValue fuel (skipWs r1) with
          | none => none
          | some (v, r2) =>
            match skipWs r2 with
            | ',' :: r3 => pMembers fuel (objInsert acc k v) (skipWs r3)
            | '\x7d' :: r3 => some (objInsert acc k v, r3)
            | _ => none
        | _ => none
    | _ => none

end

/-- The value of `JSON.parse(s)`: `none` models a thrown `SyntaxError`. -/
def parseText (s : String) : Option JsonValue :=
  let cs := skipWs s.data
  match pValue (cs.length + 1) cs with
  | some (v, r) => if skipWs r = [] then some v else none
  | none => none

/-- JavaScript whitespace as trimmed by `String.prototype.trim` and skipped
by `Number()`: ASCII whitespace, vertical tab, form feed, NBSP, BOM,
Unicode space separators and line terminators. -/
def jsWs (c : Char) : Bool :=
  isWs c || c.toNat = 11 || c.toNat = 12 || c.toNat = 160 || c.toNat = 5760 ||
    (8192 ≤ c.toNat && c.toNat ≤ 8202) || c.toNat = 8232 || c.toNat = 8233 ||
    c.toNat = 8239 || c.toNat = 8287 || c.toNat = 12288 || c.toNat = 65279

/-- JavaScript `raw.trim()`. -/
def jsTrim (s : String) : String :=
  String.mk (((s.data.dropWhile jsWs).reverse.dropWhile jsWs).reverse)

/-- JavaScript `toLowerCase` restricted to its ASCII action. -/
def jsLower (s : String) : String :=
  String.mk (s.data.map Char.toLower)

/-- Digit string value in base `b`, `none` if empty or out of range. -/
def baseDigitsVal (b : Nat) : Nat → List Char → Option Nat
  | acc, [] => some acc
  | acc, c :: cs =>
    match hexVal c with
    | some d => if d < b then baseDigitsVal b (acc * b + d) cs else none
    | none => none

/-- Decimal branch of `Number(raw)` on already-trimmed text: optional sign,
then digits with optional fraction and exponent (lenient: `"4."`, `".5"`,
leading zeros are all accepted), consuming the entire input. -/
def jsDecimal (cs : List Char) : Option (Int × Int) :=
  let sign : Int := if cs.head? = some '-' then -1 else 1
  let cs1 : List Char :=
    if cs.head? = some '+' ∨ cs.head? = some '-' then cs.tail else cs
  let intD := cs1.takeWhile Char.isDigit
  let cs2 := cs1.dropWhile Char.isDigit
  let fracD : List Char :=
    if cs2.head? = some '.' then cs2.tail.takeWhile Char.isDigit else []
  let cs3 : List Char :=
    if cs2.head? = some '.' then cs2.tail.dropWhile Char.isDigit else cs2
  if intD = [] ∧ fracD = [] then none
  else
    let mantissa : Int := sign * (digitsToNat 0 intD * 10 ^ fracD.length + digitsToNat 0 fracD)
    if cs3.head? = some 'e' ∨ cs3.head? = some 'E' then
      let r : List Char := cs3.tail
      let esign : Int := if r.head? = some '-' then -1 else 1
      let r1 : List Char := if r.head? = some '+' ∨ r.head? = some '-' then r.tail else r
      let expD := r1.takeWhile Char.isDigit
      if expD = [] ∨ r1.dropWhile Char.isDigit ≠ [] then none
      else some (mantissa, esign * digitsToNat 0 expD - fracD.length)
    else if cs3 = [] then some (mantissa, -(fracD.length : Int))
    else none

/-- The value of `Number(raw)` as an exact decimal: trims JS whitespace,
maps the empty string to `0`, accepts hexadecimal, octal and binary integer
literals and (signed) decimal literals.  `none` models `NaN`; the
non-finite results of `Number` (the `Infinity` literals, which the exact
decimal domain does not contain) also fall to `none`. -/
def jsNumber (raw : String) : Option (Int × Int) :=
  let cs := ((raw.data.dropWhile jsWs).reverse.dropWhile jsWs).reverse
  match cs with
  | [] => some (0, 0)
  | '0' :: x :: ds =>
    if x = 'x' ∨ x = 'X' then (baseDigitsVal 16 0 ds).bind (fun n => if ds = [] then none else some (n, 0))
    else if x = 'o' ∨ x = 'O' then (baseDigitsVal 8 0 ds).bind (fun n => if ds = [] then none else some (n, 0))
    else if x = 'b' ∨ x = 'B' then (baseDigitsVal 2 0 ds).bind (fun n => if ds = [] then none else some (n, 0))
    else jsDecimal cs
  | _ => jsDecimal cs

mutual

/-- JavaScript `String(v)` string coercion of a JSON value: strings stay
verbatim, scalars print their literal form, arrays join their elements with
commas (`null` joining as empty), objects print `[object Object]`. -/
def jsToString : JsonValue → String
  | JsonValue.null => "null"
  | JsonValue.bool b => if b then "true" else "false"
  | JsonValue.num m e => String.mk (numChars m e)
  | JsonValue.str s => s
  | JsonValue.arr es => String.mk (jsJoinElems es)
  | JsonValue.obj _ => "[object Object]"
termination_by v => (sizeOf v, 0)

/-- Element rendering of JavaScript `Array.prototype.toString`. -/
def jsJoinElems : List JsonValue → List Char
  | [] => []
  | [x] => jsElemChars x
  | x :: xs => jsElemChars x ++ ',' :: jsJoinElems xs
termination_by es => (sizeOf es, 0)

/-- One array element under `Array.prototype.join`: `null` renders empty. -/
def jsElemChars : JsonValue → List Char
  | JsonValue.null => []
  | y => (jsToString y).data
termination_by x => (sizeOf x, 1)

end

/-- One iteration of the `forEach` of `normalizeNodeData`: skip the row
when its type is `array` or `object`, otherwise assign
`obj[row.key] = row.value` when the key is truthy. -/
def buildStep (acc : List (String × JsonValue)) (row : NodeRow) : List (String × JsonValue) :=
  if row.type ≠ RowType.arr ∧ row.type ≠ RowType.obj then
    if truthyKey row.key then objInsert acc (row.key.getD "") row.value else acc
  else acc

/-- Mapping built by `normalizeNodeData` for a composite row set. -/
def buildObj (nodeRows : List NodeRow) : List (String × JsonValue) :=
  nodeRows.foldl buildStep []

/-- The modal's `normalizeNodeData`: empty rows give the empty-object text,
a single row with a falsy key gives its value as JS text interpolation, and
any other row set gives the pretty-printed mapping of its scalar keyed
rows. -/
def normalizeNodeData (nodeRows : List NodeRow) : String :=
  match nodeRows with
  | [] => "\x7b\x7d"
  | row :: rest =>
    if rest = [] ∧ ¬ truthyKey row.key then jsToString row.value
    else strSerialize (JsonValue.obj (buildObj (row :: rest)))

/-- The modal's `jsonPathToString`: root marker for a missing or empty path,
otherwise each segment in its own bracket pair, string segments quoted and
numeric segments bare. -/
def jsonPathToString (path : Option (List Seg)) : String :=
  match path with
  | none => "$"
  | some [] => "$"
  | some p =>
    "$[" ++
      String.intercalate "]["
        (p.map (fun seg =>
          match seg with
          | Seg.idx n => String.mk (natToChars n)
          | Seg.key s => "\"" ++ s ++ "\"")) ++ "]"

/-- One JS property read `ptr[seg]` on a JSON tree (`none` is `undefined`;
reads on scalars model the walk leaving the JSON data, see `mutatePath`). -/
def stepGet (d : JsonValue) (seg : Seg) : Option JsonValue :=
  match d with
  | JsonValue.obj fs => objGet fs (segKey seg)
  | JsonValue.arr es => (segIndex seg).bind (fun i => es.get? i)
  | _ => none

/-- The final assignment `ptr[last] = newValue` of the path walk.  On an
object it is a keyed insert, on an array an index assignment (a non-index
key on an array is an expando property invisible to `JSON.stringify`), and
on `null` or a scalar the assignment throws a `TypeError` in strict mode,
modelled by `none`. -/
def jsSetLast : JsonValue → Seg → JsonValue → Option JsonValue
  | JsonValue.obj fs, seg, v => some (JsonValue.obj (objInsert fs (segKey seg) v))
  | JsonValue.arr es, seg, v =>
    match segIndex seg with
    | some i => some (JsonValue.arr (arrSet es i v))
    | none => some (JsonValue.arr es)
  | _, _, _ => none

/-- The path walk of `applyEditToJson` on a non-empty path: walk every
segment but the last, creating an empty object (`ptr[seg] = {}`) where the
current value is `undefined`, then assign at the last segment.  Reaching a
scalar or `null` mid-walk ends in a thrown `TypeError` (reading a property
of `null` throws, and the eventual vivification or final write on any other
primitive throws in strict mode): `none`.  A non-index key on an array
vivifies a detached object invisible to `JSON.stringify`. -/
def mutatePath : JsonValue → List Seg → JsonValue → Option JsonValue
  | d, [seg], v => jsSetLast d seg v
  | JsonValue.obj fs, seg :: rest, v =>
    (mutatePath ((objGet fs (segKey seg)).getD (JsonValue.obj [])) rest v).map
      (fun c => JsonValue.obj (objInsert fs (segKey seg) c))
  | JsonValue.arr es, seg :: rest, v =>
    (match segIndex seg with
      | some i =>
        (mutatePath ((es.get? i).getD (JsonValue.obj [])) rest v).map
          (fun c => JsonValue.arr (arrSet es i c))
      | none => (mutatePath (JsonValue.obj []) rest v).map (fun _ => JsonValue.arr es))
  | _, _ :: _, _ => none
  | _, [], _ => none

/-- Application of the coerced value at `nodeData.path`: an empty path
replaces the whole document, a non-empty path runs the mutation walk. -/
def applyValueAtPath (d : JsonValue) (path : List Seg) (v : JsonValue) : Option JsonValue :=
  match path with
  | [] => some v
  | _ :: _ => mutatePath d path v

/-- Read of a JSON tree along a path (the re-validation walk: `undefined`
or a scalar hit mid-walk gives `none`). -/
def getAtPath : JsonValue → List Seg → Option JsonValue
  | d, [] => some d
  | d, seg :: rest => (stepGet d seg).bind (fun c => getAtPath c rest)

/-- Containers are objects and arrays. -/
def isContainer : JsonValue → Bool
  | JsonValue.obj _ => true
  | JsonValue.arr _ => true
  | _ => false

/-- Every segment of the path addresses an existing container of `d`. -/
def goodPath : JsonValue → List Seg → Bool
  | _, [] => true
  | d, seg :: rest =>
    match stepGet d seg with
    | some c => isContainer c && goodPath c rest
    | none => false

/-- Outcome of one `applyEditToJson` call, as observed through the stores:
an early return on a missing selection, a call of `setError`, an uncaught
exception, or a successful propagation of the new document text. -/
inductive SaveResult where
  | noSelection : SaveResult
  | errorSet (msg : String) : SaveResult
  | threw : SaveResult
  | success (newText : String) : SaveResult
deriving DecidableEq

/-- Leaf coercion of the edited text against the declared original type
(the `isLeaf` branch of `applyEditToJson`): strings verbatim, numbers via
`Number` with a `NaN` check, booleans via trim and lowercase against
exactly `true`/`false`, `null` unconditionally, and any other declared
type by a JSON parse falling back to the raw string. -/
def coerceLeaf (leafType : RowType) (raw : String) : Except String JsonValue :=
  match leafType with
  | RowType.str => Except.ok (JsonValue.str raw)
  | RowType.num =>
    match jsNumber raw with
    | none => Except.error "Invalid number"
    | some me => Except.ok (JsonValue.num me.1 me.2)
  | RowType.bool =>
    let v := jsLower (jsTrim raw)
    if v = "true" then Except.ok (JsonValue.bool true)
    else if v = "false" then Except.ok (JsonValue.bool false)
    else Except.error "Invalid boolean (must be true or false)"
  | RowType.null => Except.ok JsonValue.null
  | _ =>
    match parseText raw with
    | some v => Except.ok v
    | none => Except.ok (JsonValue.str raw)

/-- Composite branch of `applyEditToJson`: the edited text must parse as a
JSON fragment. -/
def parseFragment (raw : String) : Except String JsonValue :=
  match parseText raw with
  | some v => Except.ok v
  | none => Except.error "Invalid JSON for object/array node"

/-- The modal's `applyEditToJson(raw)` reading the selection and the json
store: parse the current document, dispatch on
`text.length === 1 && !text[0].key` between leaf coercion and fragment
parse, then apply the value at the node's path and serialize. -/
def applyEditToJson (nodeData : Option NodeDataE) (raw : String) (jsonState : String) : SaveResult :=
  match nodeData with
  | none => SaveResult.noSelection
  | some nd =>
    match parseText jsonState with
    | none => SaveResult.errorSet "Failed to parse current JSON document."
    | some currentObj =>
      let res : Except String JsonValue :=
        match nd.text with
        | [row] => if truthyKey row.key then parseFragment raw else coerceLeaf row.type raw
        | _ => parseFragment raw
      match res with
      | Except.error msg => SaveResult.errorSet msg
      | Except.ok newValue =>
        match applyValueAtPath currentObj (nd.path.getD []) newValue with
        | none => SaveResult.threw
        | some newObj => SaveResult.success (strSerialize newObj)

/-- The store and component state the modal touches: the json store text,
the file contents, the graph source text, the selected node, and the
editing/edited/error component state. -/
structure ModalState where
  jsonState : String
  contents : String
  graphSrc : String
  selectedNode : Option NodeDataE
  editing : Bool
  edited : String
  error : Option String
deriving DecidableEq

/-- Effect of `handleSave` on the stores, per `SaveResult`: a missing
selection returns early; `setError` only records the message; an uncaught
exception changes nothing (it escapes before any setter); success pushes
the new text to the json, file and graph stores, clears the selection and
resets the editing state. -/
def handleSave (st : ModalState) : ModalState :=
  match applyEditToJson st.selectedNode st.edited st.jsonState with
  | SaveResult.noSelection => st
  | SaveResult.errorSet msg => { st with error := some msg }
  | SaveResult.threw => st
  | SaveResult.success t =>
    { st with
      jsonState := t
      contents := t
      graphSrc := t
      selectedNode := none
      editing := false
      edited := ""
      error := none }

mutual

/-- Well-formed JSON value: object key lists are duplicate free (the shape
invariant every `JSON.parse` result and every JS object satisfies). -/
def wfV : JsonValue → Bool
  | JsonValue.arr es => wfL es
  | JsonValue.obj fs => wfF fs
  | _ => true

/-- Well-formedness of an element list. -/
def wfL : List JsonValue → Bool
  | [] => true
  | x :: xs => wfV x && wfL xs

/-- Well-formedness of a field list: the head key is fresh in the tail and
all values are well formed. -/
def wfF : List (String × JsonValue) → Bool
  | [] => true
  | (k, v) :: fs => (objGet fs k).isNone && wfV v && wfF fs

end

mutual

/-- Node count of a JSON value, a fuel bound for the parser. -/
def jsizeV : JsonValue → Nat
  | JsonValue.arr es => 1 + jsizeL es
  | JsonValue.obj fs => 1 + jsizeF fs
  | _ => 1

/-- Node count of an element list. -/
def jsizeL : List JsonValue → Nat
  | [] => 0
  | x :: xs => 1 + jsizeV x + jsizeL xs

/-- Node count of a field list. -/
def jsizeF : List (String × JsonValue) → Nat
  | [] => 0
  | (_, v) :: fs => 1 + jsizeV v + jsizeF fs

end

/-- Character stream seen by the element parser from the start of the first
array item: the serialized items separated by comma, newline and padding,
then a whitespace run `w` and the closing bracket before `rest`. -/
def elemsTail (ind : Nat) (w rest : List Char) : List JsonValue → List Char
  | [] => w ++ ']' :: rest
  | [x] => serializeV ind x ++ (w ++ ']' :: rest)
  | x :: xs => serializeV ind x ++ ',' :: '\n' :: (pad ind ++ elemsTail ind w rest xs)

/-- Character stream seen by the member parser from the start of the first
object member: the serialized members separated by comma, newline and
padding, then a whitespace run `w` and the closing brace before `rest`. -/
def fieldsTail (ind : Nat) (w rest : List Char) : List (String × JsonValue) → List Char
  | [] => w ++ '\x7d' :: rest
  | [(k, v)] => quoteString k ++ ':' :: ' ' :: (serializeV ind v ++ (w ++ '\x7d' :: rest))
  | (k, v) :: fs =>
    quoteString k ++ ':' :: ' ' ::
      (serializeV ind v ++ ',' :: '\n' :: (pad ind ++ fieldsTail ind w rest fs))

/-- Inserting a fresh key appends the pair at the end. -/
theorem objInsert_of_get_none : ∀ (fs : List (String × JsonValue)) (k : String) (v : JsonValue),
    objGet fs k = none → objInsert fs k v = fs ++ [(k, v)]
  | [], _, _, _ => rfl
  | (k', v') :: fs, k, v, h => by
    simp only [objGet] at h
    by_cases hk : k' = k
    · rw [if_pos hk] at h; exact absurd h (by simp)
    · rw [if_neg hk] at h
      simp only [objInsert, if_neg hk, List.cons_append]
      rw [objInsert_of_get_none fs k v h]

/-- Rows that are skipped by the `forEach` leave the accumulator alone. -/
theorem foldl_buildStep_skip : ∀ (rows : List NodeRow) (acc : List (String × JsonValue)),
    (∀ r ∈ rows, (r.type = RowType.arr ∨ r.type = RowType.obj) ∨ truthyKey r.key = false) →
    List.foldl buildStep acc rows = acc
  | [], _, _ => rfl
  | row :: rows, acc, h => by
    have hstep : buildStep acc row = acc := by
      unfold buildStep
      rcases h row (by simp) with h1 | h2
      · rcases h1 with h1 | h1 <;> simp [h1]
      · by_cases hc : row.type ≠ RowType.arr ∧ row.type ≠ RowType.obj
        · simp [hc, h2]
        · simp [if_neg hc]
    simp only [List.foldl_cons, hstep]
    exact foldl_buildStep_skip rows acc (fun r hr => h r (by simp [hr]))

/-- The `forEach` of `normalizeNodeData` ignores rows of container type:
folding over the rows equals folding over the scalar-typed rows only. -/
theorem foldl_buildStep_filter_type : ∀ (rows : List NodeRow) (acc : List (String × JsonValue)),
    List.foldl buildStep acc rows =
      List.foldl buildStep acc
        (rows.filter (fun r => decide (r.type ≠ RowType.arr ∧ r.type ≠ RowType.obj)))
  | [], _ => rfl
  | row :: rows, acc => by
    by_cases hc : row.type ≠ RowType.arr ∧ row.type ≠ RowType.obj
    · simp only [List.filter_cons, decide_eq_true_eq]
      rw [if_pos hc]
      simp only [List.foldl_cons]
      exact foldl_buildStep_filter_type rows (buildStep acc row)
    · have hstep : buildStep acc row = acc := by
        unfold buildStep; rw [if_neg hc]
      simp only [List.filter_cons, decide_eq_true_eq]
      rw [if_neg hc]
      simp only [List.foldl_cons, hstep]
      exact foldl_buildStep_filter_type rows acc

/-- The `forEach` of `normalizeNodeData` ignores rows with a falsy key:
folding over the rows equals folding over the truthy-keyed rows only. -/
theorem foldl_buildStep_filter_key : ∀ (rows : List NodeRow) (acc : List (String × JsonValue)),
    List.foldl buildStep acc rows =
      List.foldl buildStep acc (rows.filter (fun r => truthyKey r.key))
  | [], _ => rfl
  | row :: rows, acc => by
    by_cases hk : truthyKey row.key = true
    · simp only [List.filter_cons]
      rw [if_pos hk]
      simp only [List.foldl_cons]
      exact foldl_buildStep_filter_key rows (buildStep acc row)
    · have hstep : buildStep acc row = acc := by
        unfold buildStep
        by_cases hc : row.type ≠ RowType.arr ∧ row.type ≠ RowType.obj
        · simp [hc, hk]
        · simp [if_neg hc]
      simp only [List.filter_cons]
      rw [if_neg hk]
      simp only [List.foldl_cons, hstep]
      exact foldl_buildStep_filter_key rows acc

/-- Reduction of the walk at the last segment. -/
theorem mutatePath_single (d : JsonValue) (seg : Seg) (v : JsonValue) :
    mutatePath d [seg] v = jsSetLast d seg v := by cases d <;> rfl

/-- Reduction of the walk at an intermediate segment of an object. -/
theorem mutatePath_cons_obj (fs : List (String × JsonValue)) (seg s2 : Seg) (p : List Seg)
    (v : JsonValue) :
    mutatePath (JsonValue.obj fs) (seg :: s2 :: p) v =
      (mutatePath ((objGet fs (segKey seg)).getD (JsonValue.obj [])) (s2 :: p) v).map
        (fun c => JsonValue.obj (objInsert fs (segKey seg) c)) := rfl

/-- Reduction of the walk at an intermediate segment of an array. -/
theorem mutatePath_cons_arr (es : List JsonValue) (seg s2 : Seg) (p : List Seg) (v : JsonValue) :
    mutatePath (JsonValue.arr es) (seg :: s2 :: p) v =
      (match segIndex seg with
        | some i =>
          (mutatePath ((es.get? i).getD (JsonValue.obj [])) (s2 :: p) v).map
            (fun c => JsonValue.arr (arrSet es i c))
        | none => (mutatePath (JsonValue.obj []) (s2 :: p) v).map (fun _ => JsonValue.arr es)) :=
  rfl

/-- Assignment followed by lookup of the same key. -/
theorem objGet_objInsert_self : ∀ (fs : List (String × JsonValue)) (k : String) (v : JsonValue),
    objGet (objInsert fs k v) k = some v
  | [], k, v => by simp [objInsert, objGet]
  | (k', v') :: fs, k, v => by
    by_cases hk : k' = k
    · simp [objInsert, hk, objGet]
    · simp only [objInsert, if_neg hk, objGet]
      exact objGet_objInsert_self fs k v

/-- Assignment followed by lookup of another key. -/
theorem objGet_objInsert_other : ∀ (fs : List (String × JsonValue)) (k k' : String)
    (v : JsonValue), k ≠ k' → objGet (objInsert fs k v) k' = objGet fs k'
  | [], k, k', v, h => by simp [objInsert, objGet, h]
  | (k0, v0) :: fs, k, k', v, h => by
    by_cases hk : k0 = k
    · simp only [objInsert, if_pos hk, objGet, if_neg h, hk]
    · simp only [objInsert, if_neg hk, objGet]
      by_cases hk' : k0 = k'
      · rw [if_pos hk', if_pos hk']
      · rw [if_neg hk', if_neg hk']
        exact objGet_objInsert_other fs k k' v h

/-- Array element assignment followed by read of the same index. -/
theorem arrSet_get_self (es : List JsonValue) (i : Nat) (v : JsonValue) :
    (arrSet es i v).get? i = some v := by
  unfold arrSet
  by_cases h : i < es.length
  · rw [if_pos h]
    simp [List.get?_eq_getElem?, List.getElem?_set_self, h]
  · rw [if_neg h]
    rw [List.append_assoc]
    rw [List.get?_eq_getElem?, List.getElem?_append_right (by omega)]
    have hlen : (List.replicate (i - es.length) JsonValue.null).length = i - es.length := by
      simp
    rw [List.getElem?_append_right (by omega)]
    simp [hlen]

/-- Reduction of one read step on an object. -/
theorem stepGet_obj (fs : List (String × JsonValue)) (seg : Seg) :
    stepGet (JsonValue.obj fs) seg = objGet fs (segKey seg) := rfl

/-- Reduction of one read step on an array. -/
theorem stepGet_arr (es : List JsonValue) (seg : Seg) :
    stepGet (JsonValue.arr es) seg = (segIndex seg).bind (fun i => es.get? i) := rfl

/-- Reduction of the path read at a cons. -/
theorem getAtPath_cons (d : JsonValue) (seg : Seg) (p : List Seg) :
    getAtPath d (seg :: p) = (stepGet d seg).bind (fun c => getAtPath c p) := rfl

/-- Unfolding of `goodPath` at a cons. -/
theorem goodPath_cons_iff (d : JsonValue) (seg : Seg) (p : List Seg) :
    goodPath d (seg :: p) = true ↔
      ∃ c, stepGet d seg = some c ∧ isContainer c = true ∧ goodPath c p = true := by
  simp only [goodPath]
  cases h : stepGet d seg with
  | none => simp
  | some c => simp [Bool.and_eq_true]

/-- The path walk then the re-validation read: on a path every segment of
which addresses an existing container, the walk succeeds and reading the
path in the result yields exactly the written value. -/
theorem mutate_get : ∀ (p : List Seg) (d v : JsonValue), p ≠ [] → goodPath d p = true →
    ∃ d', mutatePath d p v = some d' ∧ getAtPath d' p = some v
  | [], _, _, hp, _ => absurd rfl hp
  | [seg], d, v, _, hg => by
    obtain ⟨c, hstep, hcont, _⟩ := (goodPath_cons_iff d seg []).mp hg
    cases d with
    | obj fs =>
      refine ⟨JsonValue.obj (objInsert fs (segKey seg) v), by rw [mutatePath_single]; rfl, ?_⟩
      rw [getAtPath_cons, stepGet_obj, objGet_objInsert_self]
      rfl
    | arr es =>
      rw [stepGet_arr, Option.bind_eq_some] at hstep
      obtain ⟨i, hi, he⟩ := hstep
      refine ⟨JsonValue.arr (arrSet es i v), ?_, ?_⟩
      · rw [mutatePath_single]
        simp [jsSetLast, hi]
      · rw [getAtPath_cons, stepGet_arr, hi]
        simp only [Option.some_bind]
        rw [arrSet_get_self]
        rfl
    | null => simp [stepGet] at hstep
    | bool b => simp [stepGet] at hstep
    | num m e => simp [stepGet] at hstep
    | str s => simp [stepGet] at hstep
  | seg :: s2 :: p', d, v, _, hg => by
    obtain ⟨c, hstep, hcont, hrest⟩ := (goodPath_cons_iff d seg (s2 :: p')).mp hg
    obtain ⟨c', h1, h2⟩ := mutate_get (s2 :: p') c v (by simp) hrest
    cases d with
    | obj fs =>
      rw [stepGet_obj] at hstep
      refine ⟨JsonValue.obj (objInsert fs (segKey seg) c'), ?_, ?_⟩
      · rw [mutatePath_cons_obj, hstep]
        simp only [Option.getD_some, h1, Option.map_some']
      · rw [getAtPath_cons, stepGet_obj, objGet_objInsert_self]
        simpa using h2
    | arr es =>
      rw [stepGet_arr, Option.bind_eq_some] at hstep
      obtain ⟨i, hi, he⟩ := hstep
      refine ⟨JsonValue.arr (arrSet es i c'), ?_, ?_⟩
      · rw [mutatePath_cons_arr, hi]
        simp only [he, Option.getD_some, h1, Option.map_some']
      · rw [getAtPath_cons, stepGet_arr, hi]
        simp only [Option.some_bind]
        rw [arrSet_get_self]
        simpa using h2
    | null => simp [stepGet] at hstep
    | bool b => simp [stepGet] at hstep
    | num m e => simp [stepGet] at hstep
    | str s => simp [stepGet] at hstep

/-- Unfolding of object well-formedness. -/
theorem wfV_obj (fs : List (String × JsonValue)) : wfV (JsonValue.obj fs) = wfF fs := rfl

/-- Unfolding of array well-formedness. -/
theorem wfV_arr (es : List JsonValue) : wfV (JsonValue.arr es) = wfL es := rfl

/-- Element lists are well formed exactly when every element is. -/
theorem wfL_iff : ∀ es : List JsonValue, wfL es = true ↔ ∀ x ∈ es, wfV x = true
  | [] => by simp [wfL]
  | x :: xs => by simp [wfL, Bool.and_eq_true, wfL_iff xs]

/-- A value stored in a well-formed field list is well formed. -/
theorem wf_of_objGet : ∀ (fs : List (String × JsonValue)) (k : String) (c : JsonValue),
    wfF fs = true → objGet fs k = some c → wfV c = true
  | [], _, _, _, hg => by simp [objGet] at hg
  | (k0, v0) :: fs, k, c, hf, hg => by
    simp only [wfF, Bool.and_eq_true] at hf
    simp only [objGet] at hg
    by_cases hk : k0 = k
    · rw [if_pos hk] at hg
      cases hg
      exact hf.1.2
    · rw [if_neg hk] at hg
      exact wf_of_objGet fs k c hf.2 hg

/-- JS property assignment preserves well-formedness of the field list. -/
theorem wfF_objInsert : ∀ (fs : List (String × JsonValue)) (k : String) (v : JsonValue),
    wfF fs = true → wfV v = true → wfF (objInsert fs k v) = true
  | [], k, v, _, hv => by simp [objInsert, wfF, objGet, hv]
  | (k0, v0) :: fs, k, v, hf, hv => by
    simp only [wfF, Bool.and_eq_true] at hf
    by_cases hk : k0 = k
    · subst hk
      simp only [objInsert, if_pos rfl, wfF, Bool.and_eq_true]
      exact ⟨⟨hf.1.1, hv⟩, hf.2⟩
    · simp only [objInsert, if_neg hk, wfF, Bool.and_eq_true]
      refine ⟨⟨?_, hf.1.2⟩, wfF_objInsert fs k v hf.2 hv⟩
      rw [objGet_objInsert_other fs k k0 v (fun h => hk h.symm)]
      exact hf.1.1

/-- JS array element assignment preserves well-formedness. -/
theorem wfL_arrSet (es : List JsonValue) (i : Nat) (v : JsonValue)
    (he : wfL es = true) (hv : wfV v = true) : wfL (arrSet es i v) = true := by
  rw [wfL_iff]
  intro x hx
  unfold arrSet at hx
  by_cases h : i < es.length
  · rw [if_pos h] at hx
    rcases List.mem_or_eq_of_mem_set hx with hmem | rfl
    · exact (wfL_iff es).mp he x hmem
    · exact hv
  · rw [if_neg h] at hx
    rcases List.mem_append.mp hx with hx1 | hx2
    · rcases List.mem_append.mp hx1 with hx3 | hx4
      · exact (wfL_iff es).mp he x hx3
      · rw [(List.eq_of_mem_replicate hx4 : x = JsonValue.null)]
        rfl
    · rw [List.mem_singleton.mp hx2]
      exact hv

/-- The mutation walk preserves well-formedness of the document. -/
theorem mutate_wf : ∀ (p : List Seg) (d v d' : JsonValue), wfV d = true → wfV v = true →
    mutatePath d p v = some d' → wfV d' = true
  | [], d, v, d', _, _, h => by simp [mutatePath] at h
  | [seg], d, v, d', hd, hv, h => by
    rw [mutatePath_single] at h
    cases d with
    | obj fs =>
      simp only [jsSetLast, Option.some.injEq] at h
      rw [← h, wfV_obj]
      exact wfF_objInsert fs (segKey seg) v hd hv
    | arr es =>
      simp only [jsSetLast] at h
      cases hi : segIndex seg with
      | some i =>
        rw [hi] at h
        simp only [Option.some.injEq] at h
        rw [← h, wfV_arr]
        exact wfL_arrSet es i v hd hv
      | none =>
        rw [hi] at h
        simp only [Option.some.injEq] at h
        rw [← h]
        exact hd
    | null => simp [jsSetLast] at h
    | bool b => simp [jsSetLast] at h
    | num m e => simp [jsSetLast] at h
    | str s => simp [jsSetLast] at h
  | seg :: s2 :: p', d, v, d', hd, hv, h => by
    cases d with
    | obj fs =>
      rw [mutatePath_cons_obj] at h
      rw [Option.map_eq_some'] at h
      obtain ⟨c', h1, rfl⟩ := h
      have hchild : wfV ((objGet fs (segKey seg)).getD (JsonValue.obj [])) = true := by
        cases hg : objGet fs (segKey seg) with
        | none => rfl
        | some c => exact wf_of_objGet fs (segKey seg) c hd hg
      rw [wfV_obj]
      exact wfF_objInsert fs (segKey seg) c' hd (mutate_wf (s2 :: p') _ v c' hchild hv h1)
    | arr es =>
      rw [mutatePath_cons_arr] at h
      cases hi : segIndex seg with
      | some i =>
        rw [hi] at h
        simp only [Option.map_eq_some'] at h
        obtain ⟨c', h1, rfl⟩ := h
        have hchild : wfV ((es.get? i).getD (JsonValue.obj [])) = true := by
          cases hg : es.get? i with
          | none => rfl
          | some c =>
            exact (wfL_iff es).mp hd c (List.get?_mem hg)
        rw [wfV_arr]
        exact wfL_arrSet es i c' hd (mutate_wf (s2 :: p') _ v c' hchild hv h1)
      | none =>
        rw [hi] at h
        simp only [Option.map_eq_some'] at h
        obtain ⟨c', _, rfl⟩ := h
        exact hd
    | null => simp [mutatePath] at h
    | bool b => simp [mutatePath] at h
    | num m e => simp [mutatePath] at h
    | str s => simp [mutatePath] at h

/-- All parser productions build well-formed values: the member
accumulator's JS-assignment invariant keeps object key lists duplicate
free. -/
theorem parser_wf_all : ∀ fuel : Nat,
    (∀ cs v r, pValue fuel cs = some (v, r) → wfV v = true) ∧
    (∀ cs es r, pElements fuel cs = some (es, r) → wfL es = true) ∧
    (∀ acc cs fs r, wfF acc = true → pMembers fuel acc cs = some (fs, r) → wfF fs = true) := by
  intro fuel
  induction fuel with
  | zero =>
    refine ⟨?_, ?_, ?_⟩
    · intro cs v r h; simp [pValue] at h
    · intro cs es r h; simp [pElements] at h
    · intro acc cs fs r _ h; simp [pMembers] at h
  | succ fuel ih =>
    obtain ⟨ihV, ihE, ihM⟩ := ih
    refine ⟨?_, ?_, ?_⟩
    · intro cs v r h
      match cs with
      | [] => simp [pValue] at h
      | c :: cs1 =>
        simp only [pValue] at h
        split at h
        · split at h
          · simp only [Option.some.injEq, Prod.mk.injEq] at h
            rw [← h.1]; rfl
          · exact absurd h (by simp)
        · split at h
          · split at h
            · simp only [Option.some.injEq, Prod.mk.injEq] at h
              rw [← h.1]; rfl
            · exact absurd h (by simp)
          · split at h
            · split at h
              · simp only [Option.some.injEq, Prod.mk.injEq] at h
                rw [← h.1]; rfl
              · exact absurd h (by simp)
            · split at h
              · rw [Option.map_eq_some'] at h
                obtain ⟨p, hp, heq⟩ := h
                simp only [Prod.mk.injEq] at heq
                rw [← heq.1]; rfl
              · split at h
                · split at h
                  · simp only [Option.some.injEq, Prod.mk.injEq] at h
                    rw [← h.1]; rfl
                  · rw [Option.map_eq_some'] at h
                    obtain ⟨p, hp, heq⟩ := h
                    simp only [Prod.mk.injEq] at heq
                    rw [← heq.1, wfV_arr]
                    exact ihE _ _ _ hp
                · split at h
                  · split at h
                    · simp only [Option.some.injEq, Prod.mk.injEq] at h
                      rw [← h.1]; rfl
                    · rw [Option.map_eq_some'] at h
                      obtain ⟨p, hp, heq⟩ := h
                      simp only [Prod.mk.injEq] at heq
                      rw [← heq.1, wfV_obj]
                      exact ihM _ _ _ _ (rfl : wfF [] = true) hp
                  · split at h
                    · rw [Option.map_eq_some'] at h
                      obtain ⟨p, hp, heq⟩ := h
                      simp only [Prod.mk.injEq] at heq
                      rw [← heq.1]; rfl
                    · exact absurd h (by simp)
    · intro cs es r h
      simp only [pElements] at h
      split at h
      · exact absurd h (by simp)
      · rename_i v r0 hpv
        split at h
        · rw [Option.map_eq_some'] at h
          obtain ⟨p, hp, heq⟩ := h
          simp only [Prod.mk.injEq] at heq
          rw [← heq.1]
          simp only [wfL, Bool.and_eq_true]
          exact ⟨ihV _ _ _ hpv, ihE _ _ _ hp⟩
        · simp only [Option.some.injEq, Prod.mk.injEq] at h
          rw [← h.1]
          simp only [wfL, Bool.and_eq_true]
          exact ⟨ihV _ _ _ hpv, trivial⟩
        · exact absurd h (by simp)
    · intro acc cs fs r hacc h
      simp only [pMembers] at h
      split at h
      · split at h
        · exact absurd h (by simp)
        · rename_i k r0 hsb
          split at h
          · split at h
            · exact absurd h (by simp)
            · rename_i v r2 hpv
              split at h
              · exact ihM _ _ _ _ (wfF_objInsert acc k v hacc (ihV _ _ _ hpv)) h
              · simp only [Option.some.injEq, Prod.mk.injEq] at h
                rw [← h.1]
                exact wfF_objInsert acc k v hacc (ihV _ _ _ hpv)
              · exact absurd h (by simp)
          · exact absurd h (by simp)
      · exact absurd h (by simp)

/-- A parsed document is well formed. -/
theorem parse_wf (s : String) (d : JsonValue) (h : parseText s = some d) : wfV d = true := by
  unfold parseText at h
  simp only [] at h
  split at h
  · rename_i v r hpv
    split at h
    · cases h
      exact (parser_wf_all _).1 _ _ _ hpv
    · exact absurd h (by simp)
  · exact absurd h (by simp)

/-- Whitespace prefixes are skipped. -/
theorem skipWs_append : ∀ (w cs : List Char), (∀ c ∈ w, isWs c = true) →
    skipWs (w ++ cs) = skipWs cs
  | [], cs, _ => rfl
  | c :: w, cs, h => by
    simp only [skipWs, List.cons_append, List.dropWhile_cons, h c (by simp), if_true]
    exact skipWs_append w cs (fun c' hc' => h c' (by simp [hc']))

/-- Skipping stops at a non-whitespace head. -/
theorem skipWs_cons_not (c : Char) (cs : List Char) (h : isWs c = false) :
    skipWs (c :: cs) = c :: cs := by
  simp [skipWs, List.dropWhile_cons, h]

/-- Indentation padding is whitespace. -/
theorem pad_ws (ind : Nat) : ∀ c ∈ pad ind, isWs c = true := by
  intro c hc
  rw [List.eq_of_mem_replicate hc]
  rfl

/-- The decimal digits of zero. -/
theorem natToChars_zero : natToChars 0 = ['0'] := by simp [natToChars]

/-- A decimal digit character is a digit. -/
theorem digitChar_isDigit : ∀ d : Nat, d < 10 → (Char.ofNat (48 + d)).isDigit = true := by decide

/-- A nonzero decimal digit character is not the zero digit. -/
theorem digitChar_ne_zero : ∀ d : Nat, d < 10 → 1 ≤ d → Char.ofNat (48 + d) ≠ '0' := by decide

/-- Code point of a decimal digit character. -/
theorem digitChar_toNat : ∀ d : Nat, d < 10 → (Char.ofNat (48 + d)).toNat = 48 + d := by decide

/-- The decimal digit list of a natural number is a nonempty list of digit
characters whose head is nonzero when the number is. -/
theorem natToChars_spec (n : Nat) : ∃ c t, natToChars n = c :: t ∧
    (∀ c' ∈ natToChars n, c'.isDigit = true) ∧ (1 ≤ n → c ≠ '0') := by
  induction n using Nat.strong_induction_on with
  | _ n ih =>
    by_cases h : n < 10
    · refine ⟨Char.ofNat (48 + n), [], by simp [natToChars, h], ?_,
        fun h1 => digitChar_ne_zero n h h1⟩
      intro c' hc'
      rw [show natToChars n = [Char.ofNat (48 + n)] from by simp [natToChars, h]] at hc'
      rw [List.mem_singleton.mp hc']
      exact digitChar_isDigit n h
    · obtain ⟨c, t, hct, hall, hz⟩ := ih (n / 10) (Nat.div_lt_self (by omega) (by omega))
      have hnc : natToChars n = natToChars (n / 10) ++ [Char.ofNat (48 + n % 10)] := by
        rw [natToChars, dif_neg h]
      refine ⟨c, t ++ [Char.ofNat (48 + n % 10)], by rw [hnc, hct]; rfl, ?_,
        fun _ => hz ((Nat.one_le_div_iff (by omega)).mpr (by omega))⟩
      intro c' hc'
      rw [hnc] at hc'
      rcases List.mem_append.mp hc' with h1 | h2
      · exact hall c' h1
      · rw [List.mem_singleton.mp h2]
        exact digitChar_isDigit (n % 10) (by omega)

/-- Unfolding of digit accumulation at a cons. -/
theorem digitsToNat_cons (acc : Nat) (c : Char) (cs : List Char) :
    digitsToNat acc (c :: cs) = digitsToNat (acc * 10 + (c.toNat - 48)) cs := rfl

/-- Digit accumulation on a single digit. -/
theorem digitsToNat_singleton (acc : Nat) (c : Char) :
    digitsToNat acc [c] = acc * 10 + (c.toNat - 48) := rfl

/-- Digit accumulation splits over append. -/
theorem digitsToNat_append (xs ys : List Char) (acc : Nat) :
    digitsToNat acc (xs ++ ys) = digitsToNat (digitsToNat acc xs) ys := by
  simp [digitsToNat, List.foldl_append]

/-- Leading zero digits only scale the accumulator. -/
theorem digitsToNat_replicate_zero : ∀ (k acc : Nat),
    digitsToNat acc (List.replicate k '0') = acc * 10 ^ k
  | 0, acc => by simp [digitsToNat]
  | k + 1, acc => by
    rw [List.replicate_succ, digitsToNat_cons]
    rw [digitsToNat_replicate_zero k]
    have h0 : '0'.toNat - 48 = 0 := by decide
    rw [h0]
    ring

/-- The digit string of `n` evaluates back to `n`. -/
theorem digitsToNat_natToChars (n : Nat) : ∀ acc : Nat,
    digitsToNat acc (natToChars n) = acc * 10 ^ (natToChars n).length + n := by
  induction n using Nat.strong_induction_on with
  | _ n ih =>
    intro acc
    by_cases h : n < 10
    · rw [show natToChars n = [Char.ofNat (48 + n)] from by simp [natToChars, h]]
      rw [digitsToNat_singleton, digitChar_toNat n h, List.length_singleton]
      omega
    · have hnc : natToChars n = natToChars (n / 10) ++ [Char.ofNat (48 + n % 10)] := by
        rw [natToChars, dif_neg h]
      rw [hnc, digitsToNat_append, ih (n / 10) (Nat.div_lt_self (by omega) (by omega)) acc]
      rw [digitsToNat_singleton, digitChar_toNat (n % 10) (by omega)]
      rw [List.length_append, List.length_singleton]
      have hsub : 48 + n % 10 - 48 = n % 10 := by omega
      rw [hsub, pow_succ]
      have hdm := Nat.div_add_mod n 10
      ring_nf
      omega

/-- Digit count bound: a number below `10 ^ k` has at most `k` digits. -/
theorem natToChars_length_le (n : Nat) : ∀ k : Nat, 1 ≤ k → n < 10 ^ k →
    (natToChars n).length ≤ k := by
  induction n using Nat.strong_induction_on with
  | _ n ih =>
    intro k hk hlt
    by_cases h : n < 10
    · rw [show natToChars n = [Char.ofNat (48 + n)] from by simp [natToChars, h]]
      simpa using hk
    · have hnc : natToChars n = natToChars (n / 10) ++ [Char.ofNat (48 + n % 10)] := by
        rw [natToChars, dif_neg h]
      have hk2 : 2 ≤ k := by
        rcases Nat.lt_or_ge k 2 with hlt2 | hge
        · interval_cases k
          simp only [pow_one] at hlt
          omega
        · exact hge
      have hdiv : n / 10 < 10 ^ (k - 1) := by
        rw [Nat.div_lt_iff_lt_mul (by omega)]
        calc n < 10 ^ k := hlt
        _ = 10 ^ (k - 1) * 10 := by
          rw [← pow_succ]
          congr 1
          omega
      have := ih (n / 10) (Nat.div_lt_self (by omega) (by omega)) (k - 1) (by omega) hdiv
      rw [hnc]
      simp only [List.length_append, List.length_singleton]
      omega

/-- A stream of digit characters followed by a non-digit splits exactly at
the boundary under `takeWhile`/`dropWhile`. -/
theorem takeWhile_digits_append : ∀ (ds rest : List Char),
    (∀ c ∈ ds, c.isDigit = true) → (∀ c, rest.head? = some c → c.isDigit = false) →
    (ds ++ rest).takeWhile Char.isDigit = ds ∧ (ds ++ rest).dropWhile Char.isDigit = rest
  | [], rest, _, hb => by
    cases rest with
    | nil => exact ⟨rfl, rfl⟩
    | cons r rs =>
      have := hb r rfl
      simp [List.takeWhile_cons, List.dropWhile_cons, this]
  | d :: ds, rest, ha, hb => by
    have hd := ha d (by simp)
    have ih := takeWhile_digits_append ds rest (fun c hc => ha c (by simp [hc])) hb
    simp only [List.cons_append, List.takeWhile_cons, List.dropWhile_cons, hd, if_true]
    exact ⟨by rw [ih.1], by rw [ih.2]⟩

/-- A character with a false digit test differs from any digit-test-true
character. -/
theorem ne_of_isDigit_ne (c x : Char) (h : c.isDigit = true) (hx : x.isDigit = false) :
    c ≠ x := by
  intro hc
  rw [hc] at h
  rw [h] at hx
  simp at hx

/-- A digit character is none of the parser's structural characters and is
not whitespace. -/
theorem isDigit_ne_specials (c : Char) (h : c.isDigit = true) :
    c ≠ '-' ∧ c ≠ '.' ∧ c ≠ 'e' ∧ c ≠ 'E' ∧ c ≠ '+' ∧ c ≠ '"' ∧ c ≠ 'n' ∧ c ≠ 't' ∧
    c ≠ 'f' ∧ c ≠ '[' ∧ c ≠ '\x7b' ∧ c ≠ ']' ∧ c ≠ '\x7d' ∧ c ≠ ',' ∧ c ≠ ':' ∧
    isWs c = false := by
  refine ⟨ne_of_isDigit_ne c _ h (by decide), ne_of_isDigit_ne c _ h (by decide),
    ne_of_isDigit_ne c _ h (by decide), ne_of_isDigit_ne c _ h (by decide),
    ne_of_isDigit_ne c _ h (by decide), ne_of_isDigit_ne c _ h (by decide),
    ne_of_isDigit_ne c _ h (by decide), ne_of_isDigit_ne c _ h (by decide),
    ne_of_isDigit_ne c _ h (by decide), ne_of_isDigit_ne c _ h (by decide),
    ne_of_isDigit_ne c _ h (by decide), ne_of_isDigit_ne c _ h (by decide),
    ne_of_isDigit_ne c _ h (by decide), ne_of_isDigit_ne c _ h (by decide),
    ne_of_isDigit_ne c _ h (by decide), ?_⟩
  by_cases hw : isWs c = true
  · exfalso
    simp only [isWs, Bool.or_eq_true, decide_eq_true_eq] at hw
    rcases hw with ((h1 | h1) | h1) | h1 <;> (rw [h1] at h; exact absurd h (by decide))
  · exact Bool.eq_false_iff.mpr hw

/-- Component facts of a number boundary. -/
theorem numBoundary_facts (rest : List Char) (hb : numBoundary rest) :
    ∀ c, rest.head? = some c → c.isDigit = false ∧ c ≠ '.' ∧ c ≠ 'e' ∧ c ≠ 'E' := by
  intro c hc
  cases rest with
  | nil => simp at hc
  | cons r rs =>
    simp only [List.head?_cons, Option.some.injEq] at hc
    subst hc
    simpa [numBoundary] using hb

/-- The integer-part split of `pNumberCore` on a serialized natural number:
it consumes exactly the digit run. -/
theorem intPart_take (a : Nat) (suffix : List Char)
    (hnd : ∀ c, suffix.head? = some c → c.isDigit = false) :
    (if (natToChars a ++ suffix).head? = some '0' then (['0'] : List Char)
      else (natToChars a ++ suffix).takeWhile Char.isDigit) = natToChars a ∧
    (if (natToChars a ++ suffix).head? = some '0' then (natToChars a ++ suffix).tail
      else (natToChars a ++ suffix).dropWhile Char.isDigit) = suffix := by
  by_cases ha : a = 0
  · subst ha
    rw [natToChars_zero, List.singleton_append]
    have hh : ('0' :: suffix).head? = some '0' := rfl
    rw [if_pos hh, if_pos hh]
    exact ⟨rfl, rfl⟩
  · obtain ⟨c, t, hct, hall, hz⟩ := natToChars_spec a
    have hc0 : c ≠ '0' := hz (by omega)
    have hh : (natToChars a ++ suffix).head? = some c := by rw [hct]; rfl
    have hcond : ¬((natToChars a ++ suffix).head? = some '0') := by
      rw [hh]; simp [hc0]
    obtain ⟨h1, h2⟩ := takeWhile_digits_append (natToChars a) suffix hall hnd
    rw [if_neg hcond, if_neg hcond, h1, h2]
    exact ⟨rfl, rfl⟩

/-- The unsigned number parser on a plain serialized integer. -/
theorem pNumberCore_int (neg : Bool) (a : Nat) (rest : List Char) (hb : numBoundary rest) :
    pNumberCore neg (natToChars a ++ rest) =
      some (((if neg then (-1 : Int) else 1) * a, (0 : Int)), rest) := by
  have hbf := numBoundary_facts rest hb
  have hnd : ∀ c, rest.head? = some c → c.isDigit = false := fun c hc => (hbf c hc).1
  obtain ⟨hint, hcs2⟩ := intPart_take a rest hnd
  have hnotdot : ¬ rest.head? = some '.' := fun hc => (hbf _ hc).2.1 rfl
  have hnote : ¬(rest.head? = some 'e' ∨ rest.head? = some 'E') := by
    rintro (hc | hc)
    exacts [(hbf _ hc).2.2.1 rfl, (hbf _ hc).2.2.2 rfl]
  obtain ⟨c, t, hct, hall, hz⟩ := natToChars_spec a
  simp only [pNumberCore]
  rw [hint, hcs2]
  rw [if_neg (by rw [hct]; simp)]
  rw [if_neg hnotdot, if_neg hnotdot]
  rw [if_neg (fun h => hnotdot h.1)]
  rw [if_neg hnote]
  rw [digitsToNat_natToChars a 0]
  norm_num [digitsToNat]

/-- The unsigned number parser on a serialized exponent-form number. -/
theorem pNumberCore_exp (neg : Bool) (a b : Nat) (rest : List Char) (hb : numBoundary rest) :
    pNumberCore neg (natToChars a ++ 'e' :: (natToChars b ++ rest)) =
      some (((if neg then (-1 : Int) else 1) * a, (b : Int)), rest) := by
  have hbf := numBoundary_facts rest hb
  have hnd1 : ∀ c, ('e' :: (natToChars b ++ rest)).head? = some c → c.isDigit = false := by
    intro c hc
    simp only [List.head?_cons, Option.some.injEq] at hc
    subst hc; decide
  obtain ⟨hint, hcs2⟩ := intPart_take a ('e' :: (natToChars b ++ rest)) hnd1
  obtain ⟨c, t, hct, hall, hz⟩ := natToChars_spec a
  obtain ⟨cb, tb, hctb, hallb, hzb⟩ := natToChars_spec b
  have hnotdot : ¬ ('e' :: (natToChars b ++ rest)).head? = some '.' := by simp
  have hbhead : (natToChars b ++ rest).head? = some cb := by rw [hctb]; rfl
  have hcbd : cb.isDigit = true := hallb cb (by rw [hctb]; simp)
  obtain ⟨hexp1, hexp2⟩ :=
    takeWhile_digits_append (natToChars b) rest hallb (fun c' hc' => (hbf c' hc').1)
  simp only [pNumberCore]
  rw [hint, hcs2]
  rw [if_neg (by rw [hct]; simp)]
  rw [if_neg hnotdot, if_neg hnotdot]
  rw [if_neg (fun h => hnotdot h.1)]
  have hhe : ('e' :: (natToChars b ++ rest)).head? = some 'e' := rfl
  rw [if_pos (Or.inl hhe)]
  simp only [List.tail_cons]
  have hns : ¬((natToChars b ++ rest).head? = some '-') := by
    rw [hbhead]
    intro hcon
    exact (isDigit_ne_specials cb hcbd).1 (Option.some.inj hcon)
  have hnps : ¬((natToChars b ++ rest).head? = some '+' ∨
      (natToChars b ++ rest).head? = some '-') := by
    rintro (hcon | hcon) <;> rw [hbhead] at hcon
    · exact (isDigit_ne_specials cb hcbd).2.2.2.2.1 (Option.some.inj hcon)
    · exact (isDigit_ne_specials cb hcbd).1 (Option.some.inj hcon)
  rw [if_neg hns, if_neg hnps]
  rw [hexp1, hexp2]
  rw [if_neg (by rw [hctb]; simp)]
  rw [digitsToNat_natToChars a 0, digitsToNat_natToChars b 0]
  norm_num [digitsToNat]

/-- The unsigned number parser on a serialized decimal-point number. -/
theorem pNumberCore_frac (neg : Bool) (q r d : Nat) (rest : List Char) (hd : 1 ≤ d)
    (hr : r < 10 ^ d) (hb : numBoundary rest) :
    pNumberCore neg
        (natToChars q ++ '.' ::
          ((List.replicate (d - (natToChars r).length) '0' ++ natToChars r) ++ rest)) =
      some (((if neg then (-1 : Int) else 1) * ((q : Int) * 10 ^ d + r), -(d : Int)), rest) := by
  have hbf := numBoundary_facts rest hb
  obtain ⟨cr, tr, hctr, hallr, hzr⟩ := natToChars_spec r
  have hlenr : (natToChars r).length ≤ d := natToChars_length_le r d hd hr
  have hfrall : ∀ c ∈ List.replicate (d - (natToChars r).length) '0' ++ natToChars r,
      c.isDigit = true := by
    intro c hc
    rcases List.mem_append.mp hc with h1 | h2
    · rw [List.eq_of_mem_replicate h1]; decide
    · exact hallr c h2
  have hfrlen : (List.replicate (d - (natToChars r).length) '0' ++ natToChars r).length = d := by
    simp only [List.length_append, List.length_replicate]
    omega
  have hnd1 : ∀ c,
      ('.' :: ((List.replicate (d - (natToChars r).length) '0' ++ natToChars r) ++ rest)).head? =
        some c → c.isDigit = false := by
    intro c hc
    simp only [List.head?_cons, Option.some.injEq] at hc
    subst hc; decide
  obtain ⟨hint, hcs2⟩ := intPart_take q _ hnd1
  obtain ⟨cq, tq, hctq, hallq, hzq⟩ := natToChars_spec q
  obtain ⟨hfr1, hfr2⟩ := takeWhile_digits_append
    (List.replicate (d - (natToChars r).length) '0' ++ natToChars r) rest hfrall
    (fun c' hc' => (hbf c' hc').1)
  have hnote : ¬(rest.head? = some 'e' ∨ rest.head? = some 'E') := by
    rintro (hc | hc)
    exacts [(hbf _ hc).2.2.1 rfl, (hbf _ hc).2.2.2 rfl]
  simp only [pNumberCore]
  rw [hint, hcs2]
  rw [if_neg (by rw [hctq]; simp)]
  have hdots : ('.' ::
      ((List.replicate (d - (natToChars r).length) '0' ++ natToChars r) ++ rest)).head? =
      some '.' := rfl
  simp only [hdots, if_pos]
  simp only [List.tail_cons]
  simp only [hfr1, hfr2]
  rw [if_neg (by
    intro h
    have hlen := congrArg List.length h.2
    rw [hfrlen] at hlen
    simp only [List.length_nil] at hlen
    omega)]
  rw [if_neg hnote]
  rw [digitsToNat_natToChars q 0, digitsToNat_append, digitsToNat_replicate_zero,
    digitsToNat_natToChars r (0 * 10 ^ (d - (natToChars r).length))]
  rw [hfrlen]
  norm_num

/-- The number parser consumes a leading minus sign. -/
theorem pNumber_neg (Y : List Char) : pNumber ('-' :: Y) = pNumberCore true Y := by
  simp [pNumber]

/-- Without a leading minus the number parser runs unsigned. -/
theorem pNumber_nonneg (Y : List Char) (c : Char) (t : List Char) (hct : Y = c :: t)
    (hc : c ≠ '-') : pNumber Y = pNumberCore false Y := by
  rw [pNumber, if_neg]
  rw [hct]
  simp [hc]

/-- Round trip of the number layer: parsing the serialized form of an exact
decimal returns it unchanged, whenever the following character cannot
extend the literal. -/
theorem pNumber_numChars (m e : Int) (rest : List Char) (hb : numBoundary rest) :
    pNumber (numChars m e ++ rest) = some ((m, e), rest) := by
  rcases lt_trichotomy e 0 with he | he | he
  · have hd : 1 ≤ e.natAbs := by omega
    have hpow : 0 < 10 ^ e.natAbs := pow_pos (by norm_num) _
    have hr : m.natAbs % 10 ^ e.natAbs < 10 ^ e.natAbs := Nat.mod_lt _ hpow
    have hqr : ((m.natAbs / 10 ^ e.natAbs : Nat) : Int) * 10 ^ e.natAbs +
        ((m.natAbs % 10 ^ e.natAbs : Nat) : Int) = (m.natAbs : Int) := by
      exact_mod_cast Nat.div_add_mod' m.natAbs (10 ^ e.natAbs)
    have hexp : -((e.natAbs : Nat) : Int) = e := by omega
    by_cases hm : m < 0
    · have hshape : numChars m e ++ rest =
          '-' :: (natToChars (m.natAbs / 10 ^ e.natAbs) ++ '.' ::
            ((List.replicate
                (e.natAbs - (natToChars (m.natAbs % 10 ^ e.natAbs)).length) '0' ++
              natToChars (m.natAbs % 10 ^ e.natAbs)) ++ rest)) := by
        rw [numChars, if_neg (by omega), if_neg (by omega), if_pos hm]
        simp [List.append_assoc]
      rw [hshape, pNumber_neg,
        pNumberCore_frac true (m.natAbs / 10 ^ e.natAbs) (m.natAbs % 10 ^ e.natAbs)
          e.natAbs rest hd hr hb]
      have hval : (if (true : Bool) = true then (-1 : Int) else 1) *
          ((↑(m.natAbs / 10 ^ e.natAbs) : Int) * 10 ^ e.natAbs +
            ↑(m.natAbs % 10 ^ e.natAbs)) = m := by
        rw [if_pos rfl, hqr]
        omega
      rw [hval, hexp]
    · have hshape : numChars m e ++ rest =
          natToChars (m.natAbs / 10 ^ e.natAbs) ++ '.' ::
            ((List.replicate
                (e.natAbs - (natToChars (m.natAbs % 10 ^ e.natAbs)).length) '0' ++
              natToChars (m.natAbs % 10 ^ e.natAbs)) ++ rest) := by
        rw [numChars, if_neg (by omega), if_neg (by omega), if_neg hm]
        simp [List.append_assoc]
      obtain ⟨c, t, hct, hall, hz⟩ := natToChars_spec (m.natAbs / 10 ^ e.natAbs)
      have hcd : c.isDigit = true := hall c (by rw [hct]; simp)
      rw [hshape, pNumber_nonneg _ c (t ++ '.' ::
          ((List.replicate
              (e.natAbs - (natToChars (m.natAbs % 10 ^ e.natAbs)).length) '0' ++
            natToChars (m.natAbs % 10 ^ e.natAbs)) ++ rest))
          (by rw [hct]; rfl) (isDigit_ne_specials c hcd).1,
        pNumberCore_frac false (m.natAbs / 10 ^ e.natAbs) (m.natAbs % 10 ^ e.natAbs)
          e.natAbs rest hd hr hb]
      have hval : (if (false : Bool) = true then (-1 : Int) else 1) *
          ((↑(m.natAbs / 10 ^ e.natAbs) : Int) * 10 ^ e.natAbs +
            ↑(m.natAbs % 10 ^ e.natAbs)) = m := by
        rw [if_neg Bool.false_ne_true, hqr]
        omega
      rw [hval, hexp]
  · subst he
    by_cases hm : m < 0
    · have hshape : numChars m 0 ++ rest = '-' :: (natToChars m.natAbs ++ rest) := by
        rw [numChars, if_pos rfl, intToChars, if_pos hm]
        simp
      rw [hshape, pNumber_neg, pNumberCore_int true m.natAbs rest hb]
      have hval : (if (true : Bool) = true then (-1 : Int) else 1) * (m.natAbs : Int) = m := by
        rw [if_pos rfl]
        omega
      rw [hval]
    · have hshape : numChars m 0 ++ rest = natToChars m.natAbs ++ rest := by
        rw [numChars, if_pos rfl, intToChars, if_neg hm]
      obtain ⟨c, t, hct, hall, hz⟩ := natToChars_spec m.natAbs
      have hcd : c.isDigit = true := hall c (by rw [hct]; simp)
      rw [hshape, pNumber_nonneg _ c (t ++ rest) (by rw [hct]; rfl)
          (isDigit_ne_specials c hcd).1,
        pNumberCore_int false m.natAbs rest hb]
      have hval : (if (false : Bool) = true then (-1 : Int) else 1) * (m.natAbs : Int) = m := by
        rw [if_neg Bool.false_ne_true]
        omega
      rw [hval]
  · have hexp : ((e.toNat : Nat) : Int) = e := by omega
    by_cases hm : m < 0
    · have hshape : numChars m e ++ rest =
          '-' :: (natToChars m.natAbs ++ 'e' :: (natToChars e.toNat ++ rest)) := by
        rw [numChars, if_neg (by omega), if_pos he, intToChars, if_pos hm]
        simp [List.append_assoc]
      rw [hshape, pNumber_neg, pNumberCore_exp true m.natAbs e.toNat rest hb]
      have hval : (if (true : Bool) = true then (-1 : Int) else 1) * (m.natAbs : Int) = m := by
        rw [if_pos rfl]
        omega
      rw [hval, hexp]
    · have hshape : numChars m e ++ rest =
          natToChars m.natAbs ++ 'e' :: (natToChars e.toNat ++ rest) := by
        rw [numChars, if_neg (by omega), if_pos he, intToChars, if_neg hm]
        simp [List.append_assoc]
      obtain ⟨c, t, hct, hall, hz⟩ := natToChars_spec m.natAbs
      have hcd : c.isDigit = true := hall c (by rw [hct]; simp)
      rw [hshape, pNumber_nonneg _ c (t ++ 'e' :: (natToChars e.toNat ++ rest))
          (by rw [hct]; rfl) (isDigit_ne_specials c hcd).1,
        pNumberCore_exp false m.natAbs e.toNat rest hb]
      have hval : (if (false : Bool) = true then (-1 : Int) else 1) * (m.natAbs : Int) = m := by
        rw [if_neg Bool.false_ne_true]
        omega
      rw [hval, hexp]

/-- Hexadecimal digit characters decode to their value. -/
theorem hexVal_hexDigit : ∀ n : Nat, n < 16 → hexVal (hexDigit n) = some n := by decide

/-- An escape sequence is nonempty. -/
theorem escapeChar_ne_nil (c : Char) : 1 ≤ (escapeChar c).length := by
  unfold escapeChar
  repeat' split
  all_goals simp

/-- Reduction of one non-surrogate `\u` escape in the string body parser. -/
theorem pStringBody_unicode_step (f : Nat) (acc : List Char) (h1 h2 h3 h4 : Char)
    (a b c2 d : Nat) (T : List Char) (hv1 : hexVal h1 = some a) (hv2 : hexVal h2 = some b)
    (hv3 : hexVal h3 = some c2) (hv4 : hexVal h4 = some d)
    (hs : ¬(55296 ≤ ((a * 16 + b) * 16 + c2) * 16 + d ∧
      ((a * 16 + b) * 16 + c2) * 16 + d ≤ 56319)) :
    pStringBody (f + 1) acc ('\\' :: 'u' :: h1 :: h2 :: h3 :: h4 :: T) =
      pStringBody f (Char.ofNat (((a * 16 + b) * 16 + c2) * 16 + d) :: acc) T := by
  simp [pStringBody, hv1, hv2, hv3, hv4, hs]

/-- Round trip of the string-literal layer: the string body parser decodes
the escaped form of any character list, consuming the closing quote. -/
theorem pStringBody_round (cs : List Char) : ∀ (fuel : Nat) (acc rest : List Char),
    (cs.flatMap escapeChar).length + 1 ≤ fuel →
    pStringBody fuel acc (cs.flatMap escapeChar ++ '"' :: rest) =
      some (String.mk (acc.reverse ++ cs), rest) := by
  induction cs with
  | nil =>
    intro fuel acc rest hf
    match fuel with
    | 0 => exact absurd hf (by omega)
    | f + 1 => simp [pStringBody]
  | cons c cs ih =>
    intro fuel acc rest hf
    match fuel with
    | 0 => exact absurd hf (by omega)
    | f + 1 =>
      have hlen1 := escapeChar_ne_nil c
      have hf' : (cs.flatMap escapeChar).length + 1 ≤ f := by
        simp only [List.flatMap_cons, List.length_append] at hf
        omega
      simp only [List.flatMap_cons, List.append_assoc]
      have hgoal : some (String.mk ((c :: acc).reverse ++ cs), rest) =
          some (String.mk (acc.reverse ++ c :: cs), rest) := by
        simp
      rw [← hgoal, ← ih f (c :: acc) rest hf']
      generalize (cs.flatMap escapeChar ++ '"' :: rest) = T
      unfold escapeChar
      by_cases h1 : c = '"'
      · subst h1
        simp [pStringBody]
      by_cases h2 : c = '\\'
      · subst h2
        simp [pStringBody]
      by_cases h3 : c = '\n'
      · subst h3
        simp [pStringBody]
      by_cases h4 : c = '\r'
      · subst h4
        simp [pStringBody]
      by_cases h5 : c = '\t'
      · subst h5
        simp [pStringBody]
      by_cases h6 : c = Char.ofNat 8
      · subst h6
        simp [pStringBody]
      by_cases h7 : c = Char.ofNat 12
      · subst h7
        simp [pStringBody]
      rw [if_neg h1, if_neg h2, if_neg h3, if_neg h4, if_neg h5, if_neg h6, if_neg h7]
      by_cases h8 : c.toNat < 32
      · rw [if_pos h8]
        simp only [List.cons_append, List.nil_append]
        rw [pStringBody_unicode_step f acc '0' '0' (hexDigit (c.toNat / 16))
          (hexDigit (c.toNat % 16)) 0 0 (c.toNat / 16) (c.toNat % 16) T rfl rfl
          (hexVal_hexDigit (c.toNat / 16) (by omega)) (hexVal_hexDigit (c.toNat % 16) (by omega))
          (by omega)]
        rw [show ((0 * 16 + 0) * 16 + c.toNat / 16) * 16 + c.toNat % 16 = c.toNat from by omega]
        rw [Char.ofNat_toNat]
      · rw [if_neg h8]
        simp only [List.cons_append, List.nil_append]
        simp only [pStringBody]
        rw [if_neg h1, if_neg h2, if_neg (by omega : ¬ c.toNat < 32)]

/-- Head of a serialized number: a minus sign or a digit. -/
theorem numChars_head (m e : Int) : ∃ c t, numChars m e = c :: t ∧
    (c = '-' ∨ c.isDigit = true) := by
  rcases lt_trichotomy e 0 with he | he | he
  · rw [numChars, if_neg (by omega), if_neg (by omega)]
    by_cases hm : m < 0
    · rw [if_pos hm]
      exact ⟨'-', _, rfl, Or.inl rfl⟩
    · rw [if_neg hm]
      obtain ⟨c, t, hct, hall, _⟩ := natToChars_spec (m.natAbs / 10 ^ e.natAbs)
      rw [List.nil_append, hct]
      exact ⟨c, _, rfl, Or.inr (hall c (by rw [hct]; simp))⟩
  · subst he
    rw [numChars, if_pos rfl, intToChars]
    by_cases hm : m < 0
    · rw [if_pos hm]
      exact ⟨'-', _, rfl, Or.inl rfl⟩
    · rw [if_neg hm]
      obtain ⟨c, t, hct, hall, _⟩ := natToChars_spec m.natAbs
      rw [hct]
      exact ⟨c, t, rfl, Or.inr (hall c (by rw [hct]; simp))⟩
  · rw [numChars, if_neg (by omega), if_pos he, intToChars]
    by_cases hm : m < 0
    · rw [if_pos hm]
      exact ⟨'-', _, rfl, Or.inl rfl⟩
    · rw [if_neg hm]
      obtain ⟨c, t, hct, hall, _⟩ := natToChars_spec m.natAbs
      rw [hct]
      exact ⟨c, _, rfl, Or.inr (hall c (by rw [hct]; simp))⟩

/-- Head of a serialized value: never whitespace and never a closing or
separating character. -/
theorem serializeV_head (ind : Nat) (v : JsonValue) : ∃ c t, serializeV ind v = c :: t ∧
    isWs c = false ∧ c ≠ ']' ∧ c ≠ '\x7d' ∧ c ≠ ',' := by
  cases v with
  | null => exact ⟨'n', _, rfl, by decide, by decide, by decide, by decide⟩
  | bool b =>
    cases b with
    | false => exact ⟨'f', _, rfl, by decide, by decide, by decide, by decide⟩
    | true => exact ⟨'t', _, rfl, by decide, by decide, by decide, by decide⟩
  | num m e =>
    obtain ⟨c, t, hct, hc⟩ := numChars_head m e
    refine ⟨c, t, by rw [show serializeV ind (JsonValue.num m e) = numChars m e from rfl, hct],
      ?_, ?_, ?_, ?_⟩ <;>
      rcases hc with hc | hc
    · subst hc; decide
    · exact (isDigit_ne_specials c hc).2.2.2.2.2.2.2.2.2.2.2.2.2.2.2
    · subst hc; decide
    · exact (isDigit_ne_specials c hc).2.2.2.2.2.2.2.2.2.2.2.1
    · subst hc; decide
    · exact (isDigit_ne_specials c hc).2.2.2.2.2.2.2.2.2.2.2.2.1
    · subst hc; decide
    · exact (isDigit_ne_specials c hc).2.2.2.2.2.2.2.2.2.2.2.2.2.1
  | str s => exact ⟨'"', _, rfl, by decide, by decide, by decide, by decide⟩
  | arr es =>
    cases es with
    | nil => exact ⟨'[', _, rfl, by decide, by decide, by decide, by decide⟩
    | cons x xs => exact ⟨'[', _, rfl, by decide, by decide, by decide, by decide⟩
  | obj fs =>
    cases fs with
    | nil => exact ⟨'\x7b', _, rfl, by decide, by decide, by decide, by decide⟩
    | cons f fs => exact ⟨'\x7b', _, rfl, by decide, by decide, by decide, by decide⟩

/-- Whitespace characters cannot extend a numeric literal. -/
theorem ws_notNum (c : Char) (h : isWs c = true) :
    c.isDigit = false ∧ c ≠ '.' ∧ c ≠ 'e' ∧ c ≠ 'E' := by
  simp only [isWs, Bool.or_eq_true, decide_eq_true_eq] at h
  rcases h with ((h1 | h1) | h1) | h1 <;> subst h1 <;> exact ⟨by decide, by decide, by decide, by decide⟩

/-- A whitespace run followed by a closing character is a number boundary. -/
theorem numBoundary_wsClose (w rest : List Char) (hw : ∀ c ∈ w, isWs c = true) (cl : Char)
    (hcl : cl.isDigit = false ∧ cl ≠ '.' ∧ cl ≠ 'e' ∧ cl ≠ 'E') :
    numBoundary (w ++ cl :: rest) := by
  cases w with
  | nil => simpa [numBoundary] using hcl
  | cons w0 ws =>
    have := ws_notNum w0 (hw w0 (by simp))
    simpa [numBoundary] using this

/-- An empty stream is a number boundary. -/
theorem numBoundary_nil : numBoundary ([] : List Char) := by
  simp [numBoundary]

/-- Lookup misses exactly on lists with no occurrence of the key. -/
theorem objGet_none_iff : ∀ (fs : List (String × JsonValue)) (k : String),
    objGet fs k = none ↔ ∀ p ∈ fs, p.1 ≠ k
  | [], k => by simp [objGet]
  | (k0, v0) :: fs, k => by
    simp only [objGet, List.mem_cons]
    by_cases hk : k0 = k
    · rw [if_pos hk]
      constructor
      · intro h; exact absurd h (by simp)
      · intro h; exact absurd hk (h (k0, v0) (Or.inl rfl))
    · rw [if_neg hk]
      rw [objGet_none_iff fs k]
      constructor
      · rintro h p (rfl | hp)
        · exact hk
        · exact h p hp
      · intro h p hp; exact h p (Or.inr hp)

/-- Appending a differently keyed pair preserves a missing lookup. -/
theorem objGet_append_singleton : ∀ (acc : List (String × JsonValue)) (k x : String)
    (v : JsonValue), objGet acc x = none → k ≠ x → objGet (acc ++ [(k, v)]) x = none
  | [], k, x, v, _, h2 => by simp [objGet, h2]
  | (k0, v0) :: acc, k, x, v, h1, h2 => by
    simp only [objGet] at h1
    by_cases hk : k0 = x
    · rw [if_pos hk] at h1; exact absurd h1 (by simp)
    · rw [if_neg hk] at h1
      simp only [List.cons_append, objGet, if_neg hk]
      exact objGet_append_singleton acc k x v h1 h2

/-- Serialized array items stream as the element parser expects them. -/
theorem serializeElems_tail (ind : Nat) (w rest : List Char) :
    ∀ (x : JsonValue) (xs : List JsonValue),
      serializeElems ind (x :: xs) ++ (w ++ ']' :: rest) =
        pad ind ++ elemsTail ind w rest (x :: xs)
  | x, [] => by
    rw [show serializeElems ind [x] = pad ind ++ serializeV ind x from rfl]
    rw [show elemsTail ind w rest [x] = serializeV ind x ++ (w ++ ']' :: rest) from rfl]
    simp [List.append_assoc]
  | x, y :: ys => by
    rw [show serializeElems ind (x :: y :: ys) =
      pad ind ++ serializeV ind x ++ ',' :: '\n' :: serializeElems ind (y :: ys) from rfl]
    rw [show elemsTail ind w rest (x :: y :: ys) =
      serializeV ind x ++ ',' :: '\n' :: (pad ind ++ elemsTail ind w rest (y :: ys)) from rfl]
    have ih := serializeElems_tail ind w rest y ys
    simp only [List.append_assoc, List.cons_append] at ih ⊢
    rw [← ih]

/-- Serialized object members stream as the member parser expects them. -/
theorem serializeFields_tail (ind : Nat) (w rest : List Char) :
    ∀ (f : String × JsonValue) (fs : List (String × JsonValue)),
      serializeFields ind (f :: fs) ++ (w ++ '\x7d' :: rest) =
        pad ind ++ fieldsTail ind w rest (f :: fs)
  | (k, v), [] => by
    rw [show serializeFields ind [(k, v)] =
      pad ind ++ quoteString k ++ ':' :: ' ' :: serializeV ind v from rfl]
    rw [show fieldsTail ind w rest [(k, v)] =
      quoteString k ++ ':' :: ' ' :: (serializeV ind v ++ (w ++ '\x7d' :: rest)) from rfl]
    simp [List.append_assoc]
  | (k, v), f2 :: fs => by
    rw [show serializeFields ind ((k, v) :: f2 :: fs) =
      pad ind ++ quoteString k ++ ':' :: ' ' :: serializeV ind v ++
        ',' :: '\n' :: serializeFields ind (f2 :: fs) from rfl]
    rw [show fieldsTail ind w rest ((k, v) :: f2 :: fs) =
      quoteString k ++ ':' :: ' ' ::
        (serializeV ind v ++ ',' :: '\n' :: (pad ind ++ fieldsTail ind w rest (f2 :: fs)))
      from rfl]
    have ih := serializeFields_tail ind w rest f2 fs
    simp only [List.append_assoc, List.cons_append] at ih ⊢
    rw [← ih]

/-- Every JSON value has positive node count. -/
theorem jsizeV_pos (v : JsonValue) : 1 ≤ jsizeV v := by
  cases v <;> simp [jsizeV]

mutual

/-- The node count of a value is bounded by its serialized length. -/
theorem jsizeV_le : ∀ (v : JsonValue) (ind : Nat), jsizeV v ≤ (serializeV ind v).length
  | JsonValue.null, ind => by simp [jsizeV, serializeV]
  | JsonValue.bool b, ind => by cases b <;> simp [jsizeV, serializeV]
  | JsonValue.num m e, ind => by
    obtain ⟨c, t, hct, _⟩ := numChars_head m e
    rw [show serializeV ind (JsonValue.num m e) = numChars m e from rfl, hct]
    simp [jsizeV]
  | JsonValue.str s, ind => by
    rw [show serializeV ind (JsonValue.str s) = quoteString s from rfl]
    simp only [jsizeV, quoteString, List.length_cons, List.length_append]
    omega
  | JsonValue.arr [], ind => by simp [jsizeV, jsizeL, serializeV]
  | JsonValue.arr (x :: xs), ind => by
    have h := jsizeL_le (x :: xs) (ind + 1)
    rw [show serializeV ind (JsonValue.arr (x :: xs)) =
      '[' :: '\n' :: (serializeElems (ind + 1) (x :: xs) ++ '\n' :: (pad ind ++ [']']))
      from rfl]
    simp only [jsizeV, List.length_cons, List.length_append]
    omega
  | JsonValue.obj [], ind => by simp [jsizeV, jsizeF, serializeV]
  | JsonValue.obj (f :: fs), ind => by
    have h := jsizeF_le (f :: fs) (ind + 1)
    rw [show serializeV ind (JsonValue.obj (f :: fs)) =
      '\x7b' :: '\n' :: (serializeFields (ind + 1) (f :: fs) ++ '\n' :: (pad ind ++ ['\x7d']))
      from rfl]
    simp only [jsizeV, List.length_cons, List.length_append]
    omega

/-- The node count of an element list is bounded by its serialized length
plus one. -/
theorem jsizeL_le : ∀ (es : List JsonValue) (ind : Nat),
    jsizeL es ≤ (serializeElems ind es).length + 1
  | [], ind => by simp [jsizeL, serializeElems]
  | [x], ind => by
    have h := jsizeV_le x ind
    rw [show serializeElems ind [x] = pad ind ++ serializeV ind x from rfl]
    simp only [jsizeL, List.length_append]
    omega
  | x :: y :: ys, ind => by
    have h1 := jsizeV_le x ind
    have h2 := jsizeL_le (y :: ys) ind
    simp only [jsizeL] at h2
    rw [show serializeElems ind (x :: y :: ys) =
      pad ind ++ serializeV ind x ++ ',' :: '\n' :: serializeElems ind (y :: ys) from rfl]
    simp only [jsizeL, List.length_append, List.length_cons]
    omega

/-- The node count of a field list is bounded by its serialized length
plus one. -/
theorem jsizeF_le : ∀ (fs : List (String × JsonValue)) (ind : Nat),
    jsizeF fs ≤ (serializeFields ind fs).length + 1
  | [], ind => by simp [jsizeF, serializeFields]
  | [(k, v)], ind => by
    have h := jsizeV_le v ind
    rw [show serializeFields ind [(k, v)] =
      pad ind ++ quoteString k ++ ':' :: ' ' :: serializeV ind v from rfl]
    simp only [jsizeF, List.length_append, List.length_cons]
    omega
  | (k, v) :: f2 :: fs, ind => by
    have h1 := jsizeV_le v ind
    have h2 := jsizeF_le (f2 :: fs) ind
    simp only [jsizeF] at h2
    rw [show serializeFields ind ((k, v) :: f2 :: fs) =
      pad ind ++ quoteString k ++ ':' :: ' ' :: serializeV ind v ++
        ',' :: '\n' :: serializeFields ind (f2 :: fs) from rfl]
    simp only [jsizeF, List.length_append, List.length_cons]
    omega

end

/-- Head of an element stream: the first serialized item's head. -/
theorem elemsTail_head (ind : Nat) (w rest : List Char) (x : JsonValue) (xs : List JsonValue) :
    ∃ c t, elemsTail ind w rest (x :: xs) = c :: t ∧ isWs c = false ∧ c ≠ ']' ∧
      c ≠ '\x7d' ∧ c ≠ ',' := by
  obtain ⟨c, t, hct, h1, h2, h3, h4⟩ := serializeV_head ind x
  cases xs with
  | nil =>
    refine ⟨c, t ++ (w ++ ']' :: rest), ?_, h1, h2, h3, h4⟩
    rw [show elemsTail ind w rest [x] = serializeV ind x ++ (w ++ ']' :: rest) from rfl, hct]
    rfl
  | cons y ys =>
    refine ⟨c, t ++ ',' :: '\n' :: (pad ind ++ elemsTail ind w rest (y :: ys)), ?_,
      h1, h2, h3, h4⟩
    rw [show elemsTail ind w rest (x :: y :: ys) =
      serializeV ind x ++ ',' :: '\n' :: (pad ind ++ elemsTail ind w rest (y :: ys)) from rfl,
      hct]
    rfl

/-- Head of a member stream: the opening quote of the first key. -/
theorem fieldsTail_head (ind : Nat) (w rest : List Char) (f : String × JsonValue)
    (fs : List (String × JsonValue)) :
    ∃ t, fieldsTail ind w rest (f :: fs) = '"' :: t := by
  obtain ⟨k, v⟩ := f
  cases fs with
  | nil =>
    refine ⟨(k.data.flatMap escapeChar ++ ['"']) ++
      ':' :: ' ' :: (serializeV ind v ++ (w ++ '\x7d' :: rest)), ?_⟩
    rw [show fieldsTail ind w rest [(k, v)] =
      quoteString k ++ ':' :: ' ' :: (serializeV ind v ++ (w ++ '\x7d' :: rest)) from rfl,
      quoteString]
    rfl
  | cons f2 fs2 =>
    refine ⟨(k.data.flatMap escapeChar ++ ['"']) ++ ':' :: ' ' ::
      (serializeV ind v ++ ',' :: '\n' :: (pad ind ++ fieldsTail ind w rest (f2 :: fs2))),
      ?_⟩
    rw [show fieldsTail ind w rest ((k, v) :: f2 :: fs2) =
      quoteString k ++ ':' :: ' ' ::
        (serializeV ind v ++ ',' :: '\n' :: (pad ind ++ fieldsTail ind w rest (f2 :: fs2)))
      from rfl, quoteString]
    rfl

/-- Skipping whitespace lands on the first non-whitespace character. -/
theorem skipWs_ws_append (w cs : List Char) (hw : ∀ c ∈ w, isWs c = true) (c : Char)
    (t : List Char) (hct : cs = c :: t) (hc : isWs c = false) : skipWs (w ++ cs) = cs := by
  rw [skipWs_append w cs hw, hct, skipWs_cons_not c t hc]

/-- Round trip of the value, element and member parsers on serialized
streams, by fuel induction: parsing a serialized well-formed value returns
it unchanged. -/
theorem rt_all : ∀ fuel : Nat,
    (∀ (v : JsonValue) (ind : Nat) (rest : List Char), jsizeV v ≤ fuel → wfV v = true →
      numBoundary rest → pValue fuel (serializeV ind v ++ rest) = some (v, rest)) ∧
    (∀ (x : JsonValue) (xs : List JsonValue) (ind : Nat) (w rest : List Char),
      jsizeL (x :: xs) ≤ fuel → wfL (x :: xs) = true → (∀ c ∈ w, isWs c = true) →
      numBoundary rest →
      pElements fuel (elemsTail ind w rest (x :: xs)) = some (x :: xs, rest)) ∧
    (∀ (k : String) (v : JsonValue) (fs : List (String × JsonValue))
      (acc : List (String × JsonValue)) (ind : Nat) (w rest : List Char),
      jsizeF ((k, v) :: fs) ≤ fuel → wfF ((k, v) :: fs) = true → (∀ c ∈ w, isWs c = true) →
      numBoundary rest → (∀ p ∈ (k, v) :: fs, objGet acc p.1 = none) →
      pMembers fuel acc (fieldsTail ind w rest ((k, v) :: fs)) =
        some (acc ++ (k, v) :: fs, rest)) := by
  intro fuel
  induction fuel with
  | zero =>
    refine ⟨?_, ?_, ?_⟩
    · intro v ind rest hs _ _
      exact absurd hs (by have := jsizeV_pos v; omega)
    · intro x xs ind w rest hs _ _ _
      exact absurd hs (by have := jsizeV_pos x; simp only [jsizeL]; omega)
    · intro k v fs acc ind w rest hs _ _ _ _
      exact absurd hs (by have := jsizeV_pos v; simp only [jsizeF]; omega)
  | succ fuel ih =>
    obtain ⟨ihV, ihE, ihM⟩ := ih
    refine ⟨?_, ?_, ?_⟩
    · intro v ind rest hs hwf hbr
      cases v with
      | null =>
        show pValue (fuel + 1) ('n' :: 'u' :: 'l' :: 'l' :: rest) = some (JsonValue.null, rest)
        simp [pValue]
      | bool b =>
        cases b with
        | true =>
          show pValue (fuel + 1) ('t' :: 'r' :: 'u' :: 'e' :: rest) =
            some (JsonValue.bool true, rest)
          simp [pValue]
        | false =>
          show pValue (fuel + 1) ('f' :: 'a' :: 'l' :: 's' :: 'e' :: rest) =
            some (JsonValue.bool false, rest)
          simp [pValue]
      | num m e =>
        obtain ⟨c, t, hct, hc⟩ := numChars_head m e
        have hne : c ≠ 'n' ∧ c ≠ 't' ∧ c ≠ 'f' ∧ c ≠ '"' ∧ c ≠ '[' ∧ c ≠ '\x7b' := by
          rcases hc with hc | hc
          · subst hc
            exact ⟨by decide, by decide, by decide, by decide, by decide, by decide⟩
          · have h := isDigit_ne_specials c hc
            exact ⟨h.2.2.2.2.2.2.1, h.2.2.2.2.2.2.2.1, h.2.2.2.2.2.2.2.2.1,
              h.2.2.2.2.2.1, h.2.2.2.2.2.2.2.2.2.1, h.2.2.2.2.2.2.2.2.2.2.1⟩
        have hser : serializeV ind (JsonValue.num m e) ++ rest = c :: (t ++ rest) := by
          rw [show serializeV ind (JsonValue.num m e) = numChars m e from rfl, hct]
          rfl
        rw [hser]
        simp only [pValue]
        rw [if_neg hne.1, if_neg hne.2.1, if_neg hne.2.2.1, if_neg hne.2.2.2.1,
          if_neg hne.2.2.2.2.1, if_neg hne.2.2.2.2.2, if_pos (by
            rcases hc with hc | hc
            · exact Or.inl hc
            · exact Or.inr hc)]
        rw [show c :: (t ++ rest) = numChars m e ++ rest from by rw [hct]; rfl]
        rw [pNumber_numChars m e rest hbr]
        rfl
      | str s =>
        have hser : serializeV ind (JsonValue.str s) ++ rest =
            '"' :: (s.data.flatMap escapeChar ++ '"' :: rest) := by
          rw [show serializeV ind (JsonValue.str s) = quoteString s from rfl, quoteString]
          simp
        rw [hser]
        simp only [pValue]
        rw [if_neg (by decide), if_neg (by decide), if_neg (by decide), if_pos True.intro]
        rw [pStringBody_round s.data _ [] rest (by
          simp only [List.length_append, List.length_cons]
          omega)]
        simp only [List.reverse_nil, List.nil_append, Option.map_some']
      | arr es =>
        cases es with
        | nil =>
          show pValue (fuel + 1) ('[' :: ']' :: rest) = some (JsonValue.arr [], rest)
          simp only [pValue]
          rw [if_neg (by decide), if_neg (by decide), if_neg (by decide), if_neg (by decide),
            if_pos True.intro]
          rw [skipWs_cons_not ']' rest (by decide)]
          rfl
        | cons x xs =>
          have hw : ∀ c ∈ ('\n' :: pad ind), isWs c = true := by
            intro c hc
            rcases List.mem_cons.mp hc with rfl | hc
            · rfl
            · exact pad_ws ind c hc
          have hser : serializeV ind (JsonValue.arr (x :: xs)) ++ rest =
              '[' :: '\n' :: (pad (ind + 1) ++
                elemsTail (ind + 1) ('\n' :: pad ind) rest (x :: xs)) := by
            rw [show serializeV ind (JsonValue.arr (x :: xs)) =
              '[' :: '\n' :: (serializeElems (ind + 1) (x :: xs) ++
                '\n' :: (pad ind ++ [']'])) from rfl]
            have h := serializeElems_tail (ind + 1) ('\n' :: pad ind) rest x xs
            simp only [List.cons_append, List.append_assoc, List.nil_append] at h ⊢
            rw [← h]
          rw [hser]
          simp only [pValue]
          rw [if_neg (by decide), if_neg (by decide), if_neg (by decide), if_neg (by decide),
            if_pos True.intro]
          obtain ⟨ce, te, hce, hcew, hcerb, _, _⟩ :=
            elemsTail_head (ind + 1) ('\n' :: pad ind) rest x xs
          have hskip : skipWs ('\n' :: (pad (ind + 1) ++
              elemsTail (ind + 1) ('\n' :: pad ind) rest (x :: xs))) =
              elemsTail (ind + 1) ('\n' :: pad ind) rest (x :: xs) := by
            rw [show ('\n' :: (pad (ind + 1) ++
                elemsTail (ind + 1) ('\n' :: pad ind) rest (x :: xs))) =
              ('\n' :: pad (ind + 1)) ++
                elemsTail (ind + 1) ('\n' :: pad ind) rest (x :: xs) from by simp]
            exact skipWs_ws_append _ _ (by
              intro c hc
              rcases List.mem_cons.mp hc with rfl | hc
              · rfl
              · exact pad_ws (ind + 1) c hc) ce te hce hcew
          rw [hskip, hce]
          split
          · rename_i r heq
            exact absurd (List.cons.inj heq).1 hcerb
          · rw [← hce]
            rw [ihE x xs (ind + 1) ('\n' :: pad ind) rest (by
                simp only [jsizeV] at hs
                omega)
              (by rw [← wfV_arr]; exact hwf) hw hbr]
            rfl
      | obj fs =>
        cases fs with
        | nil =>
          show pValue (fuel + 1) ('\x7b' :: '\x7d' :: rest) = some (JsonValue.obj [], rest)
          simp only [pValue]
          rw [if_neg (by decide), if_neg (by decide), if_neg (by decide), if_neg (by decide),
            if_neg (by decide), if_pos True.intro]
          rw [skipWs_cons_not '\x7d' rest (by decide)]
          rfl
        | cons f fs =>
          obtain ⟨k, v⟩ := f
          have hw : ∀ c ∈ ('\n' :: pad ind), isWs c = true := by
            intro c hc
            rcases List.mem_cons.mp hc with rfl | hc
            · rfl
            · exact pad_ws ind c hc
          have hser : serializeV ind (JsonValue.obj ((k, v) :: fs)) ++ rest =
              '\x7b' :: '\n' :: (pad (ind + 1) ++
                fieldsTail (ind + 1) ('\n' :: pad ind) rest ((k, v) :: fs)) := by
            rw [show serializeV ind (JsonValue.obj ((k, v) :: fs)) =
              '\x7b' :: '\n' :: (serializeFields (ind + 1) ((k, v) :: fs) ++
                '\n' :: (pad ind ++ ['\x7d'])) from rfl]
            have h := serializeFields_tail (ind + 1) ('\n' :: pad ind) rest (k, v) fs
            simp only [List.cons_append, List.append_assoc, List.nil_append] at h ⊢
            rw [← h]
          rw [hser]
          simp only [pValue]
          rw [if_neg (by decide), if_neg (by decide), if_neg (by decide), if_neg (by decide),
            if_neg (by decide), if_pos True.intro]
          obtain ⟨tf, htf⟩ := fieldsTail_head (ind + 1) ('\n' :: pad ind) rest (k, v) fs
          have hskip : skipWs ('\n' :: (pad (ind + 1) ++
              fieldsTail (ind + 1) ('\n' :: pad ind) rest ((k, v) :: fs))) =
              fieldsTail (ind + 1) ('\n' :: pad ind) rest ((k, v) :: fs) := by
            rw [show ('\n' :: (pad (ind + 1) ++
                fieldsTail (ind + 1) ('\n' :: pad ind) rest ((k, v) :: fs))) =
              ('\n' :: pad (ind + 1)) ++
                fieldsTail (ind + 1) ('\n' :: pad ind) rest ((k, v) :: fs) from by simp]
            exact skipWs_ws_append _ _ (by
              intro c hc
              rcases List.mem_cons.mp hc with rfl | hc
              · rfl
              · exact pad_ws (ind + 1) c hc) '"' tf htf (by decide)
          rw [hskip, htf]
          split
          · rename_i r heq
            exact absurd (List.cons.inj heq).1 (by decide)
          · rw [← htf]
            rw [ihM k v fs [] (ind + 1) ('\n' :: pad ind) rest (by
                simp only [jsizeV] at hs
                omega)
              (by rw [← wfV_obj]; exact hwf) hw hbr (by
                intro p _
                simp [objGet])]
            rfl
    · intro x xs ind w rest hs hwf hw hbr
      have hsx : jsizeV x ≤ fuel := by
        simp only [jsizeL] at hs
        have := jsizeV_pos x
        omega
      have hwx : wfV x = true := by
        simp only [wfL, Bool.and_eq_true] at hwf
        exact hwf.1
      cases xs with
      | nil =>
        rw [show elemsTail ind w rest [x] = serializeV ind x ++ (w ++ ']' :: rest) from rfl]
        simp only [pElements]
        rw [ihV x ind (w ++ ']' :: rest) hsx hwx
          (numBoundary_wsClose w rest hw ']' ⟨by decide, by decide, by decide, by decide⟩)]
        simp [skipWs_append w (']' :: rest) hw, skipWs_cons_not ']' rest (by decide)]
      | cons y ys =>
        rw [show elemsTail ind w rest (x :: y :: ys) =
          serializeV ind x ++ ',' :: '\n' :: (pad ind ++ elemsTail ind w rest (y :: ys))
          from rfl]
        simp only [pElements]
        rw [ihV x ind (',' :: '\n' :: (pad ind ++ elemsTail ind w rest (y :: ys))) hsx hwx
          ⟨by decide, by decide, by decide, by decide⟩]
        simp only [skipWs_cons_not ','
          ('\n' :: (pad ind ++ elemsTail ind w rest (y :: ys))) (by decide)]
        obtain ⟨ce, te, hce, hcew, _, _, _⟩ := elemsTail_head ind w rest y ys
        have hskip : skipWs ('\n' :: (pad ind ++ elemsTail ind w rest (y :: ys))) =
            elemsTail ind w rest (y :: ys) := by
          rw [show ('\n' :: (pad ind ++ elemsTail ind w rest (y :: ys))) =
            ('\n' :: pad ind) ++ elemsTail ind w rest (y :: ys) from by simp]
          exact skipWs_ws_append _ _ (by
            intro c hc
            rcases List.mem_cons.mp hc with rfl | hc
            · rfl
            · exact pad_ws ind c hc) ce te hce hcew
        rw [hskip]
        rw [ihE y ys ind w rest (by
            simp only [jsizeL] at hs ⊢
            omega)
          (by
            simp only [wfL, Bool.and_eq_true] at hwf ⊢
            exact hwf.2) hw hbr]
        rfl
    · intro k v fs acc ind w rest hs hwf hw hbr hacc
      have hsv : jsizeV v ≤ fuel := by
        simp only [jsizeF] at hs
        have := jsizeV_pos v
        omega
      simp only [wfF, Bool.and_eq_true] at hwf
      obtain ⟨⟨hfresh, hwv⟩, hwfs⟩ := hwf
      have hinsert : objInsert acc k v = acc ++ [(k, v)] :=
        objInsert_of_get_none acc k v (hacc (k, v) (by simp))
      cases fs with
      | nil =>
        rw [show fieldsTail ind w rest [(k, v)] =
          quoteString k ++ ':' :: ' ' :: (serializeV ind v ++ (w ++ '\x7d' :: rest))
          from rfl, quoteString]
        rw [show ('"' :: (k.data.flatMap escapeChar ++ ['"'])) ++
            ':' :: ' ' :: (serializeV ind v ++ (w ++ '\x7d' :: rest)) =
          '"' :: (k.data.flatMap escapeChar ++
            '"' :: ':' :: ' ' :: (serializeV ind v ++ (w ++ '\x7d' :: rest))) from by simp]
        simp only [pMembers]
        rw [pStringBody_round k.data _ []
          (':' :: ' ' :: (serializeV ind v ++ (w ++ '\x7d' :: rest))) (by
            simp only [List.length_append, List.length_cons]
            omega)]
        simp only [List.reverse_nil, List.nil_append,
          skipWs_cons_not ':' (' ' :: (serializeV ind v ++ (w ++ '\x7d' :: rest)))
            (by decide)]
        obtain ⟨cv, tv, hcv, hcvw, _, _, _⟩ := serializeV_head ind v
        have hskip : skipWs (' ' :: (serializeV ind v ++ (w ++ '\x7d' :: rest))) =
            serializeV ind v ++ (w ++ '\x7d' :: rest) := by
          rw [show (' ' :: (serializeV ind v ++ (w ++ '\x7d' :: rest))) =
            [' '] ++ (serializeV ind v ++ (w ++ '\x7d' :: rest)) from rfl]
          exact skipWs_ws_append _ _ (by intro c hc; simp at hc; rw [hc]; rfl) cv
            (tv ++ (w ++ '\x7d' :: rest)) (by rw [hcv]; rfl) hcvw
        rw [hskip]
        rw [ihV v ind (w ++ '\x7d' :: rest) hsv hwv
          (numBoundary_wsClose w rest hw '\x7d' ⟨by decide, by decide, by decide, by decide⟩)]
        simp [skipWs_append w ('\x7d' :: rest) hw, skipWs_cons_not '\x7d' rest (by decide),
          show String.mk k.data = k from rfl, hinsert]
      | cons f2 fs2 =>
        obtain ⟨k2, v2⟩ := f2
        rw [show fieldsTail ind w rest ((k, v) :: (k2, v2) :: fs2) =
          quoteString k ++ ':' :: ' ' :: (serializeV ind v ++
            ',' :: '\n' :: (pad ind ++ fieldsTail ind w rest ((k2, v2) :: fs2)))
          from rfl, quoteString]
        rw [show ('"' :: (k.data.flatMap escapeChar ++ ['"'])) ++
            ':' :: ' ' :: (serializeV ind v ++
              ',' :: '\n' :: (pad ind ++ fieldsTail ind w rest ((k2, v2) :: fs2))) =
          '"' :: (k.data.flatMap escapeChar ++
            '"' :: ':' :: ' ' :: (serializeV ind v ++
              ',' :: '\n' :: (pad ind ++ fieldsTail ind w rest ((k2, v2) :: fs2))))
          from by simp]
        simp only [pMembers]
        rw [pStringBody_round k.data _ []
          (':' :: ' ' :: (serializeV ind v ++
            ',' :: '\n' :: (pad ind ++ fieldsTail ind w rest ((k2, v2) :: fs2)))) (by
            simp only [List.length_append, List.length_cons]
            omega)]
        simp only [List.reverse_nil, List.nil_append,
          skipWs_cons_not ':' (' ' :: (serializeV ind v ++
            ',' :: '\n' :: (pad ind ++ fieldsTail ind w rest ((k2, v2) :: fs2))))
            (by decide)]
        obtain ⟨cv, tv, hcv, hcvw, _, _, _⟩ := serializeV_head ind v
        have hskip : skipWs (' ' :: (serializeV ind v ++
            ',' :: '\n' :: (pad ind ++ fieldsTail ind w rest ((k2, v2) :: fs2)))) =
            serializeV ind v ++
              ',' :: '\n' :: (pad ind ++ fieldsTail ind w rest ((k2, v2) :: fs2)) := by
          rw [show (' ' :: (serializeV ind v ++
              ',' :: '\n' :: (pad ind ++ fieldsTail ind w rest ((k2, v2) :: fs2)))) =
            [' '] ++ (serializeV ind v ++
              ',' :: '\n' :: (pad ind ++ fieldsTail ind w rest ((k2, v2) :: fs2)))
            from rfl]
          exact skipWs_ws_append _ _ (by intro c hc; simp at hc; rw [hc]; rfl) cv
            (tv ++ (',' :: '\n' :: (pad ind ++ fieldsTail ind w rest ((k2, v2) :: fs2))))
            (by rw [hcv]; rfl) hcvw
        rw [hskip]
        rw [ihV v ind (',' :: '\n' :: (pad ind ++ fieldsTail ind w rest ((k2, v2) :: fs2)))
          hsv hwv ⟨by decide, by decide, by decide, by decide⟩]
        simp only [skipWs_cons_not ','
          ('\n' :: (pad ind ++ fieldsTail ind w rest ((k2, v2) :: fs2))) (by decide)]
        obtain ⟨tf, htf⟩ := fieldsTail_head ind w rest (k2, v2) fs2
        have hskip2 : skipWs ('\n' :: (pad ind ++ fieldsTail ind w rest ((k2, v2) :: fs2))) =
            fieldsTail ind w rest ((k2, v2) :: fs2) := by
          rw [show ('\n' :: (pad ind ++ fieldsTail ind w rest ((k2, v2) :: fs2))) =
            ('\n' :: pad ind) ++ fieldsTail ind w rest ((k2, v2) :: fs2) from by simp]
          exact skipWs_ws_append _ _ (by
            intro c hc
            rcases List.mem_cons.mp hc with rfl | hc
            · rfl
            · exact pad_ws ind c hc) '"' tf htf (by decide)
        rw [hskip2]
        rw [show String.mk k.data = k from rfl]
        rw [ihM k2 v2 fs2 (objInsert acc k v) ind w rest (by
            simp only [jsizeF] at hs ⊢
            omega) hwfs hw hbr (by
            intro p hp
            rw [hinsert]
            refine objGet_append_singleton acc k p.1 v
              (hacc p (List.mem_cons_of_mem _ hp)) ?_
            have hne := (objGet_none_iff ((k2, v2) :: fs2) k).mp
              (Option.isNone_iff_eq_none.mp hfresh) p hp
            exact Ne.symm hne)]
        rw [hinsert]
        simp

/-- `JSON.parse` inverts `JSON.stringify(v, null, 2)` on well-formed
values. -/
theorem parse_serialize (v : JsonValue) (hv : wfV v = true) :
    parseText (strSerialize v) = some v := by
  obtain ⟨c, t, hct, hcw, _, _, _⟩ := serializeV_head 0 v
  have hskip : skipWs (serializeV 0 v) = serializeV 0 v := by
    rw [hct]
    exact skipWs_cons_not c t hcw
  have hp : pValue ((serializeV 0 v).length + 1) (serializeV 0 v) = some (v, []) := by
    have h := (rt_all ((serializeV 0 v).length + 1)).1 v 0 []
      (by have := jsizeV_le v 0; omega) hv trivial
    simpa using h
  unfold parseText
  rw [show (strSerialize v).data = serializeV 0 v from rfl]
  simp only [hskip, hp]
  rfl

/-- C1 (confirmed).  Round trip of a save: for a current document text that
parses to a tree `d`, a selection path every segment of which addresses an
existing container of `d`, and a well-formed coerced value `v`, the
mutation succeeds with some tree `d'`, the document text written back
(`JSON.stringify(d', null, 2)`) re-parses to exactly `d'`, and walking the
path in `d'` reads back exactly `v`; the empty path replaces the whole
document by `v`. -/
theorem c1_roundtrip (docText : String) (d : JsonValue) (p : List Seg) (v : JsonValue)
    (hdoc : parseText docText = some d) (hpath : goodPath d p = true) (hv : wfV v = true) :
    ∃ d', applyValueAtPath d p v = some d' ∧
      parseText (strSerialize d') = some d' ∧ getAtPath d' p = some v := by
  cases p with
  | nil => exact ⟨v, rfl, parse_serialize v hv, rfl⟩
  | cons s rest =>
    obtain ⟨d', hmut, hget⟩ := mutate_get (s :: rest) d v (by simp) hpath
    have hwd : wfV d = true := parse_wf docText d hdoc
    have hwd' : wfV d' = true := mutate_wf (s :: rest) d v d' hwd hv hmut
    exact ⟨d', hmut, parse_serialize d' hwd', hget⟩

/-- Concrete instance of the C1 round trip: document `{"a": [{}]}`, path
`["a", 0]`, new value `true`. -/
theorem c1_roundtrip_witness :
    parseText (strSerialize (JsonValue.obj [("a", JsonValue.arr [JsonValue.obj []])])) =
      some (JsonValue.obj [("a", JsonValue.arr [JsonValue.obj []])]) ∧
    goodPath (JsonValue.obj [("a", JsonValue.arr [JsonValue.obj []])])
      [Seg.key "a", Seg.idx 0] = true ∧
    wfV (JsonValue.bool true) = true ∧
    ∃ d', applyValueAtPath (JsonValue.obj [("a", JsonValue.arr [JsonValue.obj []])])
        [Seg.key "a", Seg.idx 0] (JsonValue.bool true) = some d' ∧
      parseText (strSerialize d') = some d' ∧
      getAtPath d' [Seg.key "a", Seg.idx 0] = some (JsonValue.bool true) :=
  ⟨parse_serialize _ rfl, rfl, rfl,
    c1_roundtrip (strSerialize (JsonValue.obj [("a", JsonValue.arr [JsonValue.obj []])]))
      (JsonValue.obj [("a", JsonValue.arr [JsonValue.obj []])])
      [Seg.key "a", Seg.idx 0] (JsonValue.bool true)
      (parse_serialize _ rfl) rfl rfl⟩

/-- C5 (confirmed).  Boolean leaf coercion trims and lowercases the edited
text; exactly `true` yields the boolean true and exactly `false` yields the
boolean false, and any other trimmed-lowercased text fails with the
invalid-boolean error — in particular `yes`. -/
theorem c5_boolean_coercion (raw : String) :
    (jsLower (jsTrim raw) = "true" →
      coerceLeaf RowType.bool raw = Except.ok (JsonValue.bool true)) ∧
    (jsLower (jsTrim raw) = "false" →
      coerceLeaf RowType.bool raw = Except.ok (JsonValue.bool false)) ∧
    (jsLower (jsTrim raw) ≠ "true" → jsLower (jsTrim raw) ≠ "false" →
      coerceLeaf RowType.bool raw = Except.error "Invalid boolean (must be true or false)") ∧
    coerceLeaf RowType.bool "yes" = Except.error "Invalid boolean (must be true or false)" := by
  refine ⟨?_, ?_, ?_, by decide⟩
  · intro h; simp [coerceLeaf, h]
  · intro h; simp [coerceLeaf, h]
  · intro h1 h2; simp [coerceLeaf, h1, h2]

/-- Witness for C5 at concrete inputs. -/
theorem c5_boolean_coercion_witness :
    coerceLeaf RowType.bool " TRUE " = Except.ok (JsonValue.bool true) ∧
    coerceLeaf RowType.bool "no" = Except.error "Invalid boolean (must be true or false)" :=
  ⟨(c5_boolean_coercion " TRUE ").1 (by decide),
    (c5_boolean_coercion "no").2.2.1 (by decide) (by decide)⟩

/-- C6 (confirmed).  Number leaf coercion parses the edited text with
`Number` and fails with the invalid-number error exactly when the result is
not a number — in particular `42` coerces to 42 and `abc` fails. -/
theorem c6_number_coercion (raw : String) :
    (∀ m e : Int, jsNumber raw = some (m, e) →
      coerceLeaf RowType.num raw = Except.ok (JsonValue.num m e)) ∧
    (jsNumber raw = none → coerceLeaf RowType.num raw = Except.error "Invalid number") ∧
    coerceLeaf RowType.num "42" = Except.ok (JsonValue.num 42 0) ∧
    coerceLeaf RowType.num "abc" = Except.error "Invalid number" := by
  refine ⟨?_, ?_, by decide, by decide⟩
  · intro m e h; simp [coerceLeaf, h]
  · intro h; simp [coerceLeaf, h]

/-- Witness for C6 at concrete inputs. -/
theorem c6_number_coercion_witness :
    coerceLeaf RowType.num "1.5" = Except.ok (JsonValue.num 15 (-1)) ∧
    coerceLeaf RowType.num "x" = Except.error "Invalid number" :=
  ⟨(c6_number_coercion "1.5").1 15 (-1) (by decide),
    (c6_number_coercion "x").2.1 (by decide)⟩

/-- C8 (confirmed).  Projecting a single unkeyed row returns its value as
plain text with no JSON quoting, for every scalar type, and the empty row
set projects to the empty-object text. -/
theorem c8_leaf_projection (k : Option String) (t : RowType) (hk : truthyKey k = false) :
    normalizeNodeData [] = "\x7b\x7d" ∧
    (∀ s, normalizeNodeData [⟨k, JsonValue.str s, t⟩] = s) ∧
    (∀ m e : Int, normalizeNodeData [⟨k, JsonValue.num m e, t⟩] = String.mk (numChars m e)) ∧
    (∀ b, normalizeNodeData [⟨k, JsonValue.bool b, t⟩] = (if b then "true" else "false")) ∧
    normalizeNodeData [⟨k, JsonValue.null, t⟩] = "null" := by
  refine ⟨rfl, ?_, ?_, ?_, ?_⟩ <;>
    · intros; simp [normalizeNodeData, hk, jsToString]

/-- Witness for C8 at concrete inputs. -/
theorem c8_leaf_projection_witness :
    normalizeNodeData [⟨none, JsonValue.str "plain text", RowType.str⟩] = "plain text" ∧
    normalizeNodeData [⟨some "", JsonValue.bool true, RowType.bool⟩] = "true" := by
  refine ⟨(c8_leaf_projection none RowType.str (by decide)).2.1 "plain text", ?_⟩
  have h := (c8_leaf_projection (some "") RowType.bool (by decide)).2.2.2.1 true
  simpa using h

/-- C7 (confirmed).  A composite row set projects to the pretty-printed
2-space JSON of the key-to-value mapping built by skipping every row whose
type is object or array. -/
theorem c7_composite_projection (row : NodeRow) (rest : List NodeRow)
    (hcomp : rest = [] → truthyKey row.key = true) :
    normalizeNodeData (row :: rest) = strSerialize (JsonValue.obj (buildObj (row :: rest))) ∧
    buildObj (row :: rest) =
      buildObj ((row :: rest).filter
        (fun r => decide (r.type ≠ RowType.arr ∧ r.type ≠ RowType.obj))) := by
  constructor
  · have hcond : ¬(rest = [] ∧ truthyKey row.key = false) :=
      fun h => absurd (hcomp h.1) (by simp [h.2])
    simp [normalizeNodeData, hcond]
  · unfold buildObj
    exact foldl_buildStep_filter_type (row :: rest) []

/-- Witness for C7 at a concrete composite row set with a container row. -/
theorem c7_composite_projection_witness :
    normalizeNodeData
        [⟨some "a", JsonValue.num 1 0, RowType.num⟩, ⟨some "b", JsonValue.obj [], RowType.obj⟩] =
      strSerialize (JsonValue.obj (buildObj
        [⟨some "a", JsonValue.num 1 0, RowType.num⟩, ⟨some "b", JsonValue.obj [], RowType.obj⟩])) ∧
    buildObj
        [⟨some "a", JsonValue.num 1 0, RowType.num⟩, ⟨some "b", JsonValue.obj [], RowType.obj⟩] =
      buildObj
        ([⟨some "a", JsonValue.num 1 0, RowType.num⟩,
            ⟨some "b", JsonValue.obj [], RowType.obj⟩].filter
          (fun r => decide (r.type ≠ RowType.arr ∧ r.type ≠ RowType.obj))) :=
  c7_composite_projection _ _ (by decide)

/-- C10 (confirmed).  In the composite projection every row with a falsy
key is also excluded, and a composite row set of only keyless and
container-typed rows projects to the empty-object text. -/
theorem c10_composite_key_exclusion (row : NodeRow) (rest : List NodeRow)
    (hcomp : rest = [] → truthyKey row.key = true)
    (hall : ∀ r ∈ row :: rest,
      truthyKey r.key = false ∨ r.type = RowType.obj ∨ r.type = RowType.arr) :
    normalizeNodeData (row :: rest) = "\x7b\x7d" ∧
    (∀ rows : List NodeRow, buildObj rows = buildObj (rows.filter (fun r => truthyKey r.key))) := by
  constructor
  · have hcond : ¬(rest = [] ∧ truthyKey row.key = false) :=
      fun h => absurd (hcomp h.1) (by simp [h.2])
    have hempty : buildObj (row :: rest) = [] := by
      unfold buildObj
      exact foldl_buildStep_skip _ _ (fun r hr => by
        rcases hall r hr with h | h | h
        · exact Or.inr h
        · exact Or.inl (Or.inr h)
        · exact Or.inl (Or.inl h))
    have hcond2 : ¬(rest = [] ∧ ¬ truthyKey row.key = true) := fun h => h.2 (hcomp h.1)
    simp only [normalizeNodeData, hempty]
    rw [if_neg hcond2]
    rfl
  · intro rows
    unfold buildObj
    exact foldl_buildStep_filter_key rows []

/-- Witness for C10 at a concrete keyless-and-container row set. -/
theorem c10_composite_key_exclusion_witness :
    normalizeNodeData
        [⟨none, JsonValue.str "x", RowType.str⟩, ⟨some "o", JsonValue.obj [], RowType.obj⟩] =
      "\x7b\x7d" ∧
    (∀ rows : List NodeRow, buildObj rows = buildObj (rows.filter (fun r => truthyKey r.key))) :=
  c10_composite_key_exclusion _ _ (by decide) (by decide)

/-- C2 (confirmed).  When the current document text does not parse,
`applyEditToJson` reports the malformed-document error, and `handleSave`
only records that error: the json store, file contents, graph source and
edited text are all left unchanged. -/
theorem c2_malformed_document (st : ModalState) (nd : NodeDataE)
    (hsel : st.selectedNode = some nd) (hbad : parseText st.jsonState = none) :
    applyEditToJson st.selectedNode st.edited st.jsonState =
      SaveResult.errorSet "Failed to parse current JSON document." ∧
    handleSave st = { st with error := some "Failed to parse current JSON document." } := by
  have h1 : applyEditToJson st.selectedNode st.edited st.jsonState =
      SaveResult.errorSet "Failed to parse current JSON document." := by
    rw [hsel]; simp [applyEditToJson, hbad]
  refine ⟨h1, ?_⟩
  unfold handleSave
  rw [h1]

/-- Witness for C2 at a concrete malformed document text. -/
theorem c2_malformed_document_witness :
    applyEditToJson (some ⟨[], none⟩) "edit" "\x7b" =
      SaveResult.errorSet "Failed to parse current JSON document." ∧
    handleSave ⟨"\x7b", "c", "g", some ⟨[], none⟩, true, "edit", none⟩ =
      ⟨"\x7b", "c", "g", some ⟨[], none⟩, true, "edit",
        some "Failed to parse current JSON document."⟩ := by
  have h := c2_malformed_document ⟨"\x7b", "c", "g", some ⟨[], none⟩, true, "edit", none⟩
    ⟨[], none⟩ rfl (by decide)
  exact ⟨h.1, h.2⟩

/-- C9 (confirmed).  Leaf dispatch needs one row and a falsy key: a single
row with a truthy key is treated as composite (its edited text must parse as
JSON, otherwise the invalid-fragment error), while a single row with a
falsy key gets the per-type coercion (here the boolean error). -/
theorem c9_leaf_dispatch (row : NodeRow) (path : Option (List Seg)) (raw js : String)
    (cur : JsonValue) (hjs : parseText js = some cur) (hraw : parseText raw = none) :
    (truthyKey row.key = true →
      applyEditToJson (some ⟨[row], path⟩) raw js =
        SaveResult.errorSet "Invalid JSON for object/array node") ∧
    (truthyKey row.key = false → row.type = RowType.bool →
      jsLower (jsTrim raw) ≠ "true" → jsLower (jsTrim raw) ≠ "false" →
      applyEditToJson (some ⟨[row], path⟩) raw js =
        SaveResult.errorSet "Invalid boolean (must be true or false)") := by
  constructor
  · intro hk
    simp [applyEditToJson, hjs, hk, parseFragment, hraw]
  · intro hk ht h1 h2
    simp [applyEditToJson, hjs, hk, ht, coerceLeaf, h1, h2]

/-- Witness for C9: a keyed single row rejects non-JSON text as a fragment,
an unkeyed boolean row rejects it as a boolean. -/
theorem c9_leaf_dispatch_witness :
    applyEditToJson (some ⟨[⟨some "k", JsonValue.str "o", RowType.str⟩], some []⟩)
        "not json" "\x7b\x7d" =
      SaveResult.errorSet "Invalid JSON for object/array node" ∧
    applyEditToJson (some ⟨[⟨none, JsonValue.bool true, RowType.bool⟩], some []⟩)
        "not json" "\x7b\x7d" =
      SaveResult.errorSet "Invalid boolean (must be true or false)" :=
  ⟨(c9_leaf_dispatch ⟨some "k", JsonValue.str "o", RowType.str⟩ (some []) "not json" "\x7b\x7d"
      (JsonValue.obj []) (by decide) (by decide)).1 (by decide),
    (c9_leaf_dispatch ⟨none, JsonValue.bool true, RowType.bool⟩ (some []) "not json" "\x7b\x7d"
      (JsonValue.obj []) (by decide) (by decide)).2 (by decide) rfl (by decide) (by decide)⟩

/-- C3 (confirmed).  A missing intermediate segment is vivified as an empty
object even when the next segment is numeric: in particular applying `v` at
`["customer", 0]` with `customer` undefined yields an object keyed by the
string `0`, not an array. -/
theorem c3_autovivification_object (fields : List (String × JsonValue)) (v : JsonValue)
    (h : objGet fields "customer" = none) :
    applyValueAtPath (JsonValue.obj fields) [Seg.key "customer", Seg.idx 0] v =
      some (JsonValue.obj (fields ++ [("customer", JsonValue.obj [("0", v)])])) ∧
    (∀ (fs : List (String × JsonValue)) (seg : Seg) (p : List Seg) (v' : JsonValue), p ≠ [] →
      objGet fs (segKey seg) = none →
      mutatePath (JsonValue.obj fs) (seg :: p) v' =
        (mutatePath (JsonValue.obj []) p v').map
          (fun c => JsonValue.obj (objInsert fs (segKey seg) c))) := by
  constructor
  · show mutatePath (JsonValue.obj fields) [Seg.key "customer", Seg.idx 0] v = _
    rw [mutatePath_cons_obj]
    rw [show segKey (Seg.key "customer") = "customer" from rfl]
    rw [h]
    rw [show (none : Option JsonValue).getD (JsonValue.obj []) = JsonValue.obj [] from rfl]
    rw [mutatePath_single]
    rw [show jsSetLast (JsonValue.obj []) (Seg.idx 0) v =
        some (JsonValue.obj [("0", v)]) from by
      simp [jsSetLast, segIndex, objInsert, segKey, natToChars]]
    rw [show Option.map (fun c => JsonValue.obj (objInsert fields "customer" c))
        (some (JsonValue.obj [("0", v)])) =
      some (JsonValue.obj (objInsert fields "customer" (JsonValue.obj [("0", v)]))) from rfl]
    rw [objInsert_of_get_none fields "customer" _ h]
  · intro fs seg p v' hp hget
    cases p with
    | nil => exact absurd rfl hp
    | cons s2 p' =>
      rw [mutatePath_cons_obj, hget]
      rfl

/-- Witness for C3 at the empty document. -/
theorem c3_autovivification_object_witness :
    applyValueAtPath (JsonValue.obj []) [Seg.key "customer", Seg.idx 0] (JsonValue.num 7 0) =
      some (JsonValue.obj [("customer", JsonValue.obj [("0", JsonValue.num 7 0)])]) := by
  have h := (c3_autovivification_object [] (JsonValue.num 7 0) (by decide)).1
  simpa using h

/-- C4 (code_bug).  With current document text `null` (valid JSON) and a
selection at path `["a"]`, the save's mutation walk assigns a property on
`null`, which throws an uncaught `TypeError`: the save fails without setting
any visible error message and `handleSave` leaves the state unchanged, the
error still absent — the failure path that the spec says must surface a
message. -/
theorem c4_unhandled_walk_exception :
    applyEditToJson (some ⟨[⟨none, JsonValue.null, RowType.null⟩], some [Seg.key "a"]⟩)
        "x" "null" = SaveResult.threw ∧
    handleSave
        ⟨"null", "null", "null",
          some ⟨[⟨none, JsonValue.null, RowType.null⟩], some [Seg.key "a"]⟩, true, "x", none⟩ =
      ⟨"null", "null", "null",
        some ⟨[⟨none, JsonValue.null, RowType.null⟩], some [Seg.key "a"]⟩, true, "x", none⟩ := by
  exact ⟨rfl, rfl⟩

end JsonCrack
